import Mathlib

/-!
# A verification development for the megaphone dynamic repartitioning core

This file gives a shallow embedding, in Lean 4, of the migration protocol of
the repository (the `Stateful` routing/state operator pair of
`src/stateful.rs`, the control-set compiler of `src/distribution.rs`, and the
payload-carrying `FrontierNotificator` of `src/notificator.rs`), together
with theorems about the embedded definitions.

Conventions of the embedding:
* Timestamps are `Nat` (the example driver instantiates `T = u64`, a total
  order); an `Antichain<T>` / frontier is a `List Nat` of its elements.
* Record values `V`, wire-format chunks `W`, and notification metadata `D`
  are instantiated at `Nat`; the per-bin container `D : IntoIterator + Extend
  + Default` is instantiated at `List Nat` (with `Default::default() = []`,
  `extend(Some(s))` appending one element).
* A Rust panic (a failed `assert!` / `expect` / `unwrap`, or an
  out-of-bounds index) is modelled by `Option.none`.
* `Capability<T>` is modelled by its time.  Runtime-internal checks of the
  host dataflow (e.g. the assertion inside timely's `Capability::delayed`)
  are outside the embedded code base (the spec declares the runtime out of
  scope), so `delayed(&t)` is modelled as producing a capability at `t`.
-/

namespace Megaphone

/-- `pub const BIN_SHIFT: usize = 8;` (`distribution.rs`). -/
def BIN_SHIFT : Nat := 8

/-- Number of bins, `1 << BIN_SHIFT` (`distribution.rs`, `stateful.rs`). -/
def NBINS : Nat := 1 <<< BIN_SHIFT

/-- Modelled from the spec: `key_to_bin` lives in the crate root (`lib.rs`),
which is absent from `src/`; spec §3 defines `bin(k) = k >> (64 - B)` with
`B = BIN_SHIFT = 8`, matching the inline computation
`hash >> (size_of::<usize>()*8 - BIN_SHIFT)` in `distribution.rs`. -/
def key_to_bin (k : Nat) : Nat := k >>> (64 - BIN_SHIFT)

/-- A control instruction (`ControlInst` in `distribution.rs`).  A bin
identifier `Bin` is a wrapped `usize`, modelled by `Nat`. -/
inductive ControlInst : Type where
  /-- Provide a new map -/
  | map (m : List Nat)
  /-- Provide a map update -/
  | move (bin : Nat) (worker : Nat)
  /-- No-op -/
  | none
deriving DecidableEq, Repr

/-- A control message (`Control` in `distribution.rs`): a sequence number,
a total count of messages to be expected and an instruction. -/
structure Control : Type where
  sequence : Nat
  count : Nat
  inst : ControlInst
deriving DecidableEq, Repr

/-- A compiled set of control instructions (`ControlSet<T>` in
`distribution.rs`), with `T = Nat` and the `Antichain<T>` frontier as the
list of its elements. -/
structure ControlSetL : Type where
  sequence : Nat
  frontier : List Nat
  map : List Nat
deriving DecidableEq, Repr

/-- `ControlSetBuilder<T>` (`distribution.rs`). -/
structure ControlSetBuilder : Type where
  sequence : Option Nat
  frontier : List Nat
  instructions : List ControlInst
  count : Option Nat
deriving DecidableEq, Repr

/-- `ControlSetBuilder::new` / `Default::default()`. -/
def ControlSetBuilder.new : ControlSetBuilder :=
  { sequence := Option.none, frontier := [], instructions := [], count := Option.none }

/-- The `match control.inst { None => {}, inst => push }` tail of
`ControlSetBuilder::apply`. -/
def ControlSetBuilder.pushInst (b : ControlSetBuilder) (i : ControlInst) : ControlSetBuilder :=
  match i with
  | ControlInst.none => b
  | i => { b with instructions := b.instructions ++ [i] }

/-- `ControlSetBuilder::apply` (`distribution.rs:95-113`).  On the first call
the declared `count` is recorded; `assert!(*count > 0)` rejects a count
underflow and `assert_eq!(sequence, control.sequence)` rejects an
inconsistent sequence number; both asserts are modelled by `Option.none`. -/
def ControlSetBuilder.apply (b : ControlSetBuilder) (c : Control) : Option ControlSetBuilder :=
  let cnt := match b.count with
    | some k => k
    | Option.none => c.count
  if cnt = 0 then Option.none
  else
    let b1 := { b with count := some (cnt - 1) }
    match b.sequence with
    | some s => if s = c.sequence then some (b1.pushInst c.inst) else Option.none
    | Option.none => some ({ b1 with sequence := some c.sequence }.pushInst c.inst)

/-- `Antichain::insert` for a totally ordered timestamp: insert `t` unless it
is dominated, evicting elements it dominates. -/
def antichainInsert (ac : List Nat) (t : Nat) : List Nat :=
  if ac.any (fun x => x ≤ t) then ac
  else ac.filter (fun x => ¬ t ≤ x) ++ [t]

/-- Application of one accumulated instruction inside
`ControlSetBuilder::build` (`distribution.rs:126-135`): `Map(m)` replaces the
map wholesale (`clear` + `extend`), `Move(b, w)` sets `map[b] = w`, `None` is
a no-op. -/
def applyInst (m : List Nat) (i : ControlInst) : List Nat :=
  match i with
  | ControlInst.map newMap => newMap
  | ControlInst.move b w => m.set b w
  | ControlInst.none => m

/-- `ControlSetBuilder::build` (`distribution.rs:119-142`).
`assert_eq!(0, self.count.unwrap_or(0))` and `self.sequence.unwrap()` are
modelled by `Option.none`. -/
def ControlSetBuilder.build (b : ControlSetBuilder) (previous : ControlSetL) :
    Option ControlSetL :=
  if b.count.getD 0 ≠ 0 then Option.none
  else
    match b.sequence with
    | Option.none => Option.none
    | some s =>
      some { sequence := s
             frontier := b.frontier.foldl antichainInsert []
             map := b.instructions.foldl applyInst previous.map }

/-- Folding `ControlSetBuilder.apply` over a list of control messages. -/
def ControlSetBuilder.applyList (b : ControlSetBuilder) (cs : List Control) :
    Option ControlSetBuilder :=
  cs.foldlM ControlSetBuilder.apply b

/-! ## The per-worker state store (`State` in `stateful.rs`)

`State<T, S, D>` holds `bins: Vec<Option<S>>` and a
`FrontierNotificator<T, (Key, D)>`.  For the routing/installation theorems
only the notificator's `pending` list is touched (via `notify_at` and
`pending_mut`), so the store carries that list; the full notificator model
appears further below.  A pending notification is a capability time together
with a payload vector of `(Key, D)` pairs, instantiated at `(Nat × Nat)`. -/

/-- The per-worker state store, `State<T, S, D>` of `stateful.rs` with
`S = List Nat` (a bin container of `Nat` chunks) and notification payloads
`(Key, D) = (Nat × Nat)`.  `notifPending` is the notificator's `pending`
list. -/
structure StateL : Type where
  bins : List (Option (List Nat))
  notifPending : List (Nat × List (Nat × Nat))
deriving DecidableEq, Repr

/-- `StateProtocol<T, S, D>` (`stateful.rs:100-107`), the wire format on the
state-transfer channel. -/
inductive SP : Type where
  /-- Provide a piece of state for a bin: `State(Bin, S)` -/
  | State (bin : Nat) (s : Nat)
  /-- Announce an outstanding time stamp: `Pending(T, (Key, D))` -/
  | Pending (t : Nat) (d : Nat × Nat)
  /-- Prepare for receiving state: `Prepare(Bin)` -/
  | Prepare (bin : Nat)
deriving DecidableEq, Repr

/-! ## Installation inside F (`stateful.rs:329-372`) -/

/-- The bin-migration loop of the installation step
(`stateful.rs:342-352`): iterate `old_map.zip(new_map).enumerate()`; for a
bin whose old owner is this worker (`old % peers == index`) and whose
assignment changed (`old != new`), `take` the contents
(`expect`ing them to be `Some`, modelled by `Option.none` on failure) and
emit `(new, Prepare(bin))` followed by one `(new, State(bin, chunk))` per
contained element.  `b` is the index of the first remaining pair; the `bins`
list is aligned with `pairs` (an out-of-range index is a panic). -/
def migrateLoop (index peers : Nat) :
    Nat → List (Nat × Nat) → List (Option (List Nat)) →
    Option (List (Option (List Nat)) × List (Nat × SP))
  | _, [], bins => some (bins, [])
  | _, _ :: _, [] => Option.none
  | b, (old, new) :: rest, slot :: bins =>
    if old % peers = index ∧ old ≠ new then
      match slot with
      | Option.none => Option.none
      | some chunks =>
        match migrateLoop index peers (b + 1) rest bins with
        | Option.none => Option.none
        | some (bins', ems) =>
          some (Option.none :: bins',
                ((new, SP.Prepare b) :: chunks.map (fun s => (new, SP.State b s))) ++ ems)
    else
      match migrateLoop index peers (b + 1) rest bins with
      | Option.none => Option.none
      | some (bins', ems) => some (slot :: bins', ems)

/-- The `data.retain(..)` walk over one pending entry's payload vector
(`stateful.rs:354-366`): a payload whose bin ownership changes under the
transition is emitted as `(new_worker, Pending(cap.time(), (key, meta)))`
and dropped; otherwise it is kept. -/
def migrateRetain (oldMap newMap : List Nat) (t : Nat) :
    List (Nat × Nat) → List (Nat × Nat) × List (Nat × SP)
  | [] => ([], [])
  | (k, m) :: ds =>
    let rest := migrateRetain oldMap newMap t ds
    if oldMap.getD (key_to_bin k) 0 ≠ newMap.getD (key_to_bin k) 0 then
      (rest.1, (newMap.getD (key_to_bin k) 0, SP.Pending t (k, m)) :: rest.2)
    else ((k, m) :: rest.1, rest.2)

/-- The walk over the notificator's pending list at installation
(`stateful.rs:353-367`): each entry keeps its capability and retains only
the payloads whose bin owner is unchanged; the rest are shipped. -/
def notifMigrate (oldMap newMap : List Nat) :
    List (Nat × List (Nat × Nat)) →
    List (Nat × List (Nat × Nat)) × List (Nat × SP)
  | [] => ([], [])
  | (t, data) :: rest =>
    let kept := migrateRetain oldMap newMap t data
    let rest' := notifMigrate oldMap newMap rest
    ((t, kept.1) :: rest'.1, kept.2 ++ rest'.2)

/-- One worker's state-shipping work at installation: the bin-migration loop
followed by the pending-notification walk, against the shared state store
(`stateful.rs:338-368`). -/
def workerEmit (index peers : Nat) (oldMap newMap : List Nat) (st : StateL) :
    Option (StateL × List (Nat × SP)) :=
  match migrateLoop index peers 0 (oldMap.zip newMap) st.bins with
  | Option.none => Option.none
  | some (bins', ems1) =>
    let walked := notifMigrate oldMap newMap st.notifPending
    some ({ bins := bins', notifPending := walked.1 }, ems1 ++ walked.2)

/-- The F operator's configuration state: the queue of pending compiled
configurations (sorted by sequence) and the active one. -/
structure FConfig : Type where
  pending_configurations : List ControlSetL
  active_configuration : ControlSetL
deriving DecidableEq, Repr

/-- The installation condition (`stateful.rs:329`): every element `t` of the
head pending configuration's frontier satisfies `!probe.less_than(t)`,
where a probe frontier is less-than `t` iff some element of it is `< t`. -/
def installableB (cfg : ControlSetL) (probe : List Nat) : Bool :=
  cfg.frontier.all (fun t => ! probe.any (fun f => decide (f < t)))

/-- The installation check-and-apply of F's `data_notificator` pass
(`stateful.rs:329-372`): when the head of the pending queue is installable,
remove it, ship state and pending notifications, and promote it to active.
Returns the updated configuration state, the updated state store, and the
messages emitted on the state output. -/
def installPass (index peers : Nat) (probe : List Nat) (cfg : FConfig) (st : StateL) :
    Option (FConfig × StateL × List (Nat × SP)) :=
  match cfg.pending_configurations with
  | [] => some (cfg, st, [])
  | toInstall :: rest =>
    if installableB toInstall probe then
      match workerEmit index peers cfg.active_configuration.map toInstall.map st with
      | Option.none => Option.none
      | some (st', ems) =>
        some ({ pending_configurations := rest, active_configuration := toInstall }, st', ems)
    else some (cfg, st, [])

/-! ## The data path of F (`stateful.rs:290-315, 376-407`) -/

/-- Snapshot selection of the data path (`stateful.rs:294-300, 388-394`):
the last (highest-sequence) pending configuration whose frontier is
`less_equal` the record time, falling back to the active configuration. -/
def selectMap (pending : List ControlSetL) (active : ControlSetL) (t : Nat) : List Nat :=
  ((pending.reverse.find? (fun c => c.frontier.any (fun e => decide (e ≤ t)))).getD active).map

/-- Routing of one record (`stateful.rs:305-308, 398-401`): compute the
64-bit key with the user hash (`Key(key(&d))`, a `u64`), and forward
`(map[key_to_bin(key)], key, d)`. -/
def route (h : Nat → Nat) (m : List Nat) (d : Nat) : Nat × Nat × Nat :=
  let key := h d % 2 ^ 64
  (m.getD (key_to_bin key) 0, key, d)

/-- `data_stash.entry(t).push(batch)`: append one input batch under time
`t` in the stash (a map from times to lists of batches). -/
def stashAdd (stash : List (Nat × List (List Nat))) (t : Nat) (data : List Nat) :
    List (Nat × List (List Nat)) :=
  if stash.any (fun e => e.1 = t) then
    stash.map (fun e => if e.1 = t then (e.1, e.2 ++ [data]) else e)
  else stash ++ [(t, [data])]

/-- Arrival of one data batch at time `t` in F (`stateful.rs:376-407`): if
the control frontier is `less_equal` `t` the batch is stashed and nothing
is emitted; otherwise each record is routed under the selected snapshot.
Returns the new stash and the routed output. -/
def dataArrival (h : Nat → Nat) (controlFrontier : List Nat)
    (pending : List ControlSetL) (active : ControlSetL) (t : Nat) (data : List Nat)
    (stash : List (Nat × List (List Nat))) :
    List (Nat × List (List Nat)) × List (Nat × Nat × Nat) :=
  if controlFrontier.any (fun f => decide (f ≤ t)) then (stashAdd stash t data, [])
  else (stash, data.map (route h (selectMap pending active t)))

/-- Draining the stash for a notified time `t` (`stateful.rs:290-315`): the
batches stashed under `t` are removed and routed under the snapshot selected
by the same rule. -/
def stashDrain (h : Nat → Nat) (pending : List ControlSetL) (active : ControlSetL)
    (t : Nat) (stash : List (Nat × List (List Nat))) :
    List (Nat × List (List Nat)) × List (Nat × Nat × Nat) :=
  match stash.find? (fun e => e.1 = t) with
  | Option.none => (stash, [])
  | some entry =>
    (stash.filter (fun e => e.1 ≠ t),
     entry.2.flatMap (fun batch => batch.map (route h (selectMap pending active t))))

/-! ## The S operator (`stateful.rs:420-491`) -/

/-- Application of one state-transfer message inside S's notification body
(`stateful.rs:431-443`).  `Prepare(bin)` asserts `bins[bin].is_none()` and
installs an empty default container; `State(bin, s)` extends the container
through `as_mut().map(..)`, which silently does nothing when the bin is
`None`; `Pending(t, d)` registers `(time.delayed(&t), vec![d])` on the
shared notificator.  Indexing out of range is a panic. -/
def applySP (st : StateL) (sp : SP) : Option StateL :=
  match sp with
  | SP.Prepare bin =>
    match st.bins[bin]? with
    | Option.none => Option.none
    | some (some _) => Option.none
    | some Option.none => some { st with bins := st.bins.set bin (some []) }
  | SP.State bin s =>
    match st.bins[bin]? with
    | Option.none => Option.none
    | some Option.none => some st
    | some (some c) => some { st with bins := st.bins.set bin (some (c ++ [s])) }
  | SP.Pending t d =>
    some { st with notifPending := st.notifPending ++ [(t, [d])] }

/-- The inner loop `for (_target, state) in state_update` of S
(`stateful.rs:429-446`): apply the messages of one stashed batch in order
(the `target` tag is ignored). -/
def applyBatch (st : StateL) (batch : List (Nat × SP)) : Option StateL :=
  batch.foldlM (fun s msg => applySP s msg.2) st

/-- The body of S's `notificator.for_each` at one time (`stateful.rs:423-459`):
first apply the queued state-transfer batches for the time in the order
received, then forward the stashed data batches in receipt order.  Returns
the updated store and the forwarded records. -/
def sNotifyStep (updates : List (List (Nat × SP))) (pend : List (List (Nat × Nat × Nat)))
    (st : StateL) : Option (StateL × List (Nat × Nat × Nat)) :=
  match (updates.foldlM applyBatch st) with
  | Option.none => Option.none
  | some st' => some (st', pend.flatMap id)

/-! ## Helper lemmas -/

theorem pushInst_sequence (b : ControlSetBuilder) (i : ControlInst) :
    (b.pushInst i).sequence = b.sequence := by
  cases i <;> rfl

theorem pushInst_count (b : ControlSetBuilder) (i : ControlInst) :
    (b.pushInst i).count = b.count := by
  cases i <;> rfl

/-- Folding a monadic action over appended lists splits the fold. -/
theorem foldlM_append_option {α β : Type} (f : β → α → Option β) (b : β)
    (l₁ l₂ : List α) :
    (l₁ ++ l₂).foldlM f b =
      (l₁.foldlM f b).bind (fun b' => l₂.foldlM f b') := by
  induction l₁ generalizing b with
  | nil => simp [List.foldlM]
  | cons x xs ih =>
    simp only [List.cons_append, List.foldlM_cons]
    cases f b x with
    | none => rfl
    | some b' => simp [ih b']

/-- The count declared at the current call of `apply`: the recorded one, or
the message's own on a first call. -/
def declaredCount (b : ControlSetBuilder) (c : Control) : Nat :=
  match b.count with
  | some k => k
  | Option.none => c.count

/-- Field bookkeeping of a successful `ControlSetBuilder::apply`. -/
theorem apply_fields {b : ControlSetBuilder} {c : Control} {b' : ControlSetBuilder}
    (h : b.apply c = some b') :
    b'.count = some (declaredCount b c - 1) ∧
      b'.sequence = some (b.sequence.getD c.sequence) := by
  unfold ControlSetBuilder.apply at h
  cases hb : b.count with
  | none =>
    rw [hb] at h
    by_cases hcc : c.count = 0
    · simp [hcc] at h
    · cases hs : b.sequence with
      | none =>
        rw [hs] at h
        simp only [if_neg hcc] at h
        cases h
        refine ⟨?_, ?_⟩
        · rw [pushInst_count]; simp [declaredCount, hb]
        · rw [pushInst_sequence]; simp [hs]
      | some s =>
        rw [hs] at h
        simp only [if_neg hcc] at h
        by_cases hseq : s = c.sequence
        · simp only [if_pos hseq] at h
          cases h
          refine ⟨?_, ?_⟩
          · rw [pushInst_count]; simp [declaredCount, hb]
          · rw [pushInst_sequence]; simp [hs]
        · simp [hseq] at h
  | some k =>
    rw [hb] at h
    by_cases hk : k = 0
    · simp [hk] at h
    · cases hs : b.sequence with
      | none =>
        rw [hs] at h
        simp only [if_neg hk] at h
        cases h
        refine ⟨?_, ?_⟩
        · rw [pushInst_count]; simp [declaredCount, hb]
        · rw [pushInst_sequence]; simp [hs]
      | some s =>
        rw [hs] at h
        simp only [if_neg hk] at h
        by_cases hseq : s = c.sequence
        · simp only [if_pos hseq] at h
          cases h
          refine ⟨?_, ?_⟩
          · rw [pushInst_count]; simp [declaredCount, hb]
          · rw [pushInst_sequence]; simp [hs]
        · simp [hseq] at h

/-- A successful `apply` with recorded count and matching sequence. -/
theorem apply_succeeds {b : ControlSetBuilder} {c : Control}
    (hz : declaredCount b c ≠ 0)
    (hs : ∀ s, b.sequence = some s → s = c.sequence) :
    ∃ b', b.apply c = some b' := by
  have hsome : (b.apply c).isSome := by
    unfold ControlSetBuilder.apply
    cases hb : b.count with
    | none =>
      have hcc : ¬ c.count = 0 := by simpa [declaredCount, hb] using hz
      cases hbs : b.sequence with
      | none => simp [hb, hbs, hcc]
      | some s => simp [hb, hbs, hcc, hs s hbs]
    | some k =>
      have hk : ¬ k = 0 := by simpa [declaredCount, hb] using hz
      cases hbs : b.sequence with
      | none => simp [hb, hbs, hk]
      | some s => simp [hb, hbs, hk, hs s hbs]
  exact Option.isSome_iff_exists.mp hsome

/-- The count underflow of `ControlSetBuilder::apply` over a whole window:
starting from a builder with a recorded count and sequence, applying a list
of same-sequence controls succeeds iff the list is no longer than the
remaining count. -/
theorem applyList_isSome_iff (cs : List Control) (b : ControlSetBuilder)
    (m s : Nat) (hc : b.count = some m) (hs : b.sequence = some s)
    (hall : ∀ c ∈ cs, c.sequence = s) :
    (b.applyList cs).isSome ↔ cs.length ≤ m := by
  induction cs generalizing b m with
  | nil => simp [ControlSetBuilder.applyList, List.foldlM]
  | cons c rest ih =>
    have hcseq : c.sequence = s := hall c (by simp)
    by_cases hm : m = 0
    · subst hm
      simp [ControlSetBuilder.applyList, List.foldlM, ControlSetBuilder.apply, hc]
    · obtain ⟨b', hb'⟩ := apply_succeeds (b := b) (c := c)
        (by simp [declaredCount, hc, hm])
        (fun s' h => by rw [hs] at h; injection h with h2; omega)
      obtain ⟨hb'c, hb's⟩ := apply_fields hb'
      have hrec := ih b' (m - 1)
        (by rw [hb'c]; simp [declaredCount, hc])
        (by rw [hb's, hs]; simp [hcseq])
        (fun c' hc' => hall c' (by simp [hc']))
      unfold ControlSetBuilder.applyList at *
      rw [List.foldlM_cons, hb']
      show (List.foldlM ControlSetBuilder.apply b' rest).isSome = true ↔ _
      rw [hrec]
      simp only [List.length_cons]
      omega

/-! ## Claim theorems: the control-set compiler -/

/-- C7: `ControlSetBuilder::apply(c)` records `count` and `sequence` on its
first call, and is fatal in exactly two situations: a count underflow (more
controls in the window than the count declared by the first message) and a
sequence number differing from the recorded one. -/
theorem claim_C7_apply (b : ControlSetBuilder) (c : Control) :
    (b.apply c = Option.none ↔
      (match b.count with | some k => k | Option.none => c.count) = 0 ∨
        ∃ s, b.sequence = some s ∧ s ≠ c.sequence) ∧
    (b.count = Option.none → b.sequence = Option.none → 0 < c.count →
      ∃ b', b.apply c = some b' ∧
        b'.sequence = some c.sequence ∧ b'.count = some (c.count - 1)) ∧
    (∀ (c0 : Control) (rest : List Control) (s : Nat), c0.sequence = s →
      (∀ c' ∈ rest, c'.sequence = s) →
      ((ControlSetBuilder.new.applyList (c0 :: rest)).isSome ↔ rest.length + 1 ≤ c0.count)) := by
  refine ⟨?_, ?_, ?_⟩
  · unfold ControlSetBuilder.apply
    cases hb : b.count with
    | none =>
      by_cases hcc : c.count = 0
      · simp [hcc]
      · cases hs : b.sequence with
        | none => simp [hcc, hs]
        | some s =>
          by_cases hseq : s = c.sequence <;> simp [hcc, hs, hseq]
    | some k =>
      by_cases hk : k = 0
      · simp [hk]
      · cases hs : b.sequence with
        | none => simp [hk, hs]
        | some s =>
          by_cases hseq : s = c.sequence <;> simp [hk, hs, hseq]
  · intro hc hs hcount
    have hne : c.count ≠ 0 := by omega
    obtain ⟨b', hb'⟩ := apply_succeeds (b := b) (c := c)
      (by simp [declaredCount, hc, hne]) (fun s' h => by rw [hs] at h; cases h)
    obtain ⟨hb'c, hb's⟩ := apply_fields hb'
    refine ⟨b', hb', ?_, ?_⟩
    · rw [hb's, hs]; rfl
    · rw [hb'c]; simp [declaredCount, hc]
  · intro c0 rest s hs0 hall
    by_cases hcc : c0.count = 0
    · simp [ControlSetBuilder.applyList, List.foldlM, ControlSetBuilder.apply,
        ControlSetBuilder.new, hcc]
    · obtain ⟨b', hb'⟩ := apply_succeeds (b := ControlSetBuilder.new) (c := c0)
        (by simp [declaredCount, ControlSetBuilder.new, hcc])
        (fun s' h => by simp [ControlSetBuilder.new] at h)
      obtain ⟨hb'c, hb's⟩ := apply_fields hb'
      have hrec := applyList_isSome_iff rest b' (c0.count - 1) s
        (by rw [hb'c]; simp [declaredCount, ControlSetBuilder.new])
        (by rw [hb's]; simp [ControlSetBuilder.new, hs0]) hall
      unfold ControlSetBuilder.applyList at *
      rw [List.foldlM_cons, hb']
      show (List.foldlM ControlSetBuilder.apply b' rest).isSome = true ↔ _
      rw [hrec]
      omega

/-- Witness for C7 at a concrete first call. -/
theorem claim_C7_witness :
    ∃ b', ControlSetBuilder.new.apply ⟨7, 2, ControlInst.none⟩ = some b' ∧
      b'.sequence = some 7 ∧ b'.count = some 1 :=
  (claim_C7_apply ControlSetBuilder.new ⟨7, 2, ControlInst.none⟩).2.1 rfl rfl (by decide)

/-- C6: `ControlSetBuilder::build(prev)` requires the remaining count to be
`0` (fatal otherwise) and produces a map obtained from `prev`'s map by
applying the accumulated instructions in received order; consequently a
`Map(m)` followed by `Move` instructions transforming `m` into `m'` builds
the same map as a single `Map(m')`. -/
theorem claim_C6_build (b : ControlSetBuilder) (prev : ControlSetL) :
    (∀ k, b.count = some k → k ≠ 0 → b.build prev = Option.none) ∧
    (∀ s, b.count.getD 0 = 0 → b.sequence = some s →
      b.build prev = some (ControlSetL.mk s (b.frontier.foldl antichainInsert [])
        (b.instructions.foldl applyInst prev.map))) ∧
    (∀ (b2 : ControlSetBuilder) (m m' : List Nat) (moves : List ControlInst),
      b.instructions = ControlInst.map m :: moves →
      b2.instructions = [ControlInst.map m'] →
      (∀ i ∈ moves, ∃ bn w, i = ControlInst.move bn w) →
      moves.foldl applyInst m = m' →
      ∀ cs1 cs2, b.build prev = some cs1 → b2.build prev = some cs2 →
        cs1.map = cs2.map) := by
  refine ⟨?_, ?_, ?_⟩
  · intro k hk hkne
    simp [ControlSetBuilder.build, hk, hkne]
  · intro s hc hs
    simp [ControlSetBuilder.build, hc, hs]
  · intro b2 m m' moves h1 h2 _ hfold cs1 cs2 hb1 hb2
    have hmap1 : cs1.map = b.instructions.foldl applyInst prev.map := by
      unfold ControlSetBuilder.build at hb1
      by_cases hc : b.count.getD 0 ≠ 0
      · simp [hc] at hb1
      · cases hs : b.sequence with
        | none => simp [hc, hs] at hb1
        | some s =>
          simp [hc, hs] at hb1
          rw [← hb1]
    have hmap2 : cs2.map = b2.instructions.foldl applyInst prev.map := by
      unfold ControlSetBuilder.build at hb2
      by_cases hc : b2.count.getD 0 ≠ 0
      · simp [hc] at hb2
      · cases hs : b2.sequence with
        | none => simp [hc, hs] at hb2
        | some s =>
          simp [hc, hs] at hb2
          rw [← hb2]
    rw [hmap1, hmap2, h1, h2]
    simp only [List.foldl_cons, List.foldl_nil]
    show List.foldl applyInst m moves = m'
    exact hfold

/-- Witness for C6: `Map [1,0]` then `Move 0 2` builds the same map as
`Map [2,0]` alone. -/
theorem claim_C6_witness :
    ∀ cs1 cs2,
      ControlSetBuilder.build
        { sequence := some 1, frontier := [3], count := some 0,
          instructions := [ControlInst.map [1, 0], ControlInst.move 0 2] }
        { sequence := 0, frontier := [0], map := [0, 0] } = some cs1 →
      ControlSetBuilder.build
        { sequence := some 1, frontier := [3], count := some 0,
          instructions := [ControlInst.map [2, 0]] }
        { sequence := 0, frontier := [0], map := [0, 0] } = some cs2 →
      cs1.map = cs2.map :=
  (claim_C6_build
    { sequence := some 1, frontier := [3], count := some 0,
      instructions := [ControlInst.map [1, 0], ControlInst.move 0 2] }
    { sequence := 0, frontier := [0], map := [0, 0] }).2.2
    { sequence := some 1, frontier := [3], count := some 0,
      instructions := [ControlInst.map [2, 0]] }
    [1, 0] [2, 0] [ControlInst.move 0 2] rfl rfl
    (by intro i hi; simp at hi; exact ⟨0, 2, hi⟩) (by decide)

/-! ## Claim theorems: the S operator -/

/-- C10: a `State(b, chunk)` message processed while `bins[b]` is `None`
leaves the state store unchanged and raises no error: the chunk is silently
discarded (`as_mut().map(..)` on a `None` slot), even though no `Prepare(b)`
preceded it. -/
theorem claim_C10_state_dropped (st : StateL) (bin s : Nat)
    (h : st.bins[bin]? = some Option.none) :
    applySP st (SP.State bin s) = some st := by
  simp [applySP, h]

/-- Witness for C10: a worker that owns no bins silently drops a chunk. -/
theorem claim_C10_witness :
    applySP (StateL.mk [Option.none, Option.none] []) (SP.State 0 5) =
      some (StateL.mk [Option.none, Option.none] []) :=
  claim_C10_state_dropped (StateL.mk [Option.none, Option.none] []) 0 5 rfl

/-- C5: when S is notified at a time, it first applies the queued
state-transfer messages in the order received — `Prepare(b)` requires
`bins[b]` to be `None` (fatal if `Some`) and installs an empty default
container, `State(b, chunk)` extends `bins[b]` with the chunk,
`Pending(t', d)` registers a notification for `d` at `t'` — and only
afterwards forwards the stashed data batches in receipt order. -/
theorem claim_C5_s_notify (st : StateL) :
    (∀ bin c, st.bins[bin]? = some (some c) →
      applySP st (SP.Prepare bin) = Option.none) ∧
    (∀ bin, st.bins[bin]? = some Option.none →
      applySP st (SP.Prepare bin) =
        some { st with bins := st.bins.set bin (some []) }) ∧
    (∀ bin s c, st.bins[bin]? = some (some c) →
      applySP st (SP.State bin s) =
        some { st with bins := st.bins.set bin (some (c ++ [s])) }) ∧
    (∀ t d, applySP st (SP.Pending t d) =
      some { st with notifPending := st.notifPending ++ [(t, [d])] }) ∧
    (∀ (updates : List (List (Nat × SP))) (pend : List (List (Nat × Nat × Nat)))
        (st' : StateL) (out : List (Nat × Nat × Nat)),
      sNotifyStep updates pend st = some (st', out) →
      out = pend.flatMap id ∧
        (updates.flatMap id).foldlM (fun s msg => applySP s msg.2) st = some st') := by
  refine ⟨?_, ?_, ?_, ?_, ?_⟩
  · intro bin c h; simp [applySP, h]
  · intro bin h; simp [applySP, h]
  · intro bin s c h; simp [applySP, h]
  · intro t d; simp [applySP]
  · intro updates pend st' out h
    have hflat : ∀ (us : List (List (Nat × SP))) (s0 : StateL),
        us.foldlM applyBatch s0 =
          (us.flatMap id).foldlM (fun s msg => applySP s msg.2) s0 := by
      intro us
      induction us with
      | nil => intro s0; rfl
      | cons u rest ih =>
        intro s0
        rw [List.flatMap_cons, foldlM_append_option, List.foldlM_cons]
        show (applyBatch s0 u).bind _ = (applyBatch s0 u).bind _
        cases applyBatch s0 u with
        | none => rfl
        | some s1 => simpa using ih s1
    unfold sNotifyStep at h
    rw [hflat] at h
    cases hfold : ((updates.flatMap id).foldlM (fun s msg => applySP s msg.2) st) with
    | none => rw [hfold] at h; cases h
    | some s1 =>
      rw [hfold] at h
      simp only [Option.some.injEq, Prod.mk.injEq] at h
      exact ⟨h.2.symm, by rw [h.1]⟩

/-- Witness for C5 at a concrete store and update sequence. -/
theorem claim_C5_witness :
    applySP (StateL.mk [Option.none] []) (SP.Prepare 0) =
      some { StateL.mk [Option.none] [] with bins := [Option.none].set 0 (some []) } :=
  (claim_C5_s_notify (StateL.mk [Option.none] [])).2.1 0 rfl

/-- C4: the pending-notification walk at installation.  Every payload whose
bin changes owner between the old and the new map is emitted as
`(new_owner, Pending(cap.time(), (key, meta)))` and dropped from the local
pending list; every payload whose bin owner is unchanged is kept in place,
in order. -/
theorem claim_C4_pending_migration (oldMap newMap : List Nat)
    (pending : List (Nat × List (Nat × Nat))) :
    (notifMigrate oldMap newMap pending).1 =
      pending.map (fun e => (e.1, e.2.filter (fun km =>
        decide (oldMap.getD (key_to_bin km.1) 0 = newMap.getD (key_to_bin km.1) 0)))) ∧
    (notifMigrate oldMap newMap pending).2 =
      pending.flatMap (fun e => e.2.filterMap (fun km =>
        if oldMap.getD (key_to_bin km.1) 0 ≠ newMap.getD (key_to_bin km.1) 0
        then some (newMap.getD (key_to_bin km.1) 0, SP.Pending e.1 km)
        else Option.none)) := by
  have hretain : ∀ (t : Nat) (ds : List (Nat × Nat)),
      (migrateRetain oldMap newMap t ds).1 =
        ds.filter (fun km =>
          decide (oldMap.getD (key_to_bin km.1) 0 = newMap.getD (key_to_bin km.1) 0)) ∧
      (migrateRetain oldMap newMap t ds).2 =
        ds.filterMap (fun km =>
          if oldMap.getD (key_to_bin km.1) 0 ≠ newMap.getD (key_to_bin km.1) 0
          then some (newMap.getD (key_to_bin km.1) 0, SP.Pending t km)
          else Option.none) := by
    intro t ds
    induction ds with
    | nil => exact ⟨rfl, rfl⟩
    | cons km rest ih =>
      obtain ⟨k, m⟩ := km
      by_cases hkm : oldMap.getD (key_to_bin k) 0 = newMap.getD (key_to_bin k) 0
      · have hne : ¬ (oldMap.getD (key_to_bin k) 0 ≠ newMap.getD (key_to_bin k) 0) :=
          not_not_intro hkm
        refine ⟨?_, ?_⟩
        · rw [show migrateRetain oldMap newMap t ((k, m) :: rest) =
            ((k, m) :: (migrateRetain oldMap newMap t rest).1,
              (migrateRetain oldMap newMap t rest).2) from by
              simp only [migrateRetain, if_neg hne]]
          rw [List.filter_cons, if_pos (by simpa using hkm)]
          rw [ih.1]
        · rw [show migrateRetain oldMap newMap t ((k, m) :: rest) =
            ((k, m) :: (migrateRetain oldMap newMap t rest).1,
              (migrateRetain oldMap newMap t rest).2) from by
              simp only [migrateRetain, if_neg hne]]
          rw [List.filterMap_cons, ih.2]
          simp only [if_neg hne]
      · refine ⟨?_, ?_⟩
        · rw [show migrateRetain oldMap newMap t ((k, m) :: rest) =
            ((migrateRetain oldMap newMap t rest).1,
              (newMap.getD (key_to_bin k) 0, SP.Pending t (k, m)) ::
                (migrateRetain oldMap newMap t rest).2) from by
              simp only [migrateRetain, if_pos hkm]]
          rw [List.filter_cons, if_neg (by simpa using hkm)]
          rw [ih.1]
        · rw [show migrateRetain oldMap newMap t ((k, m) :: rest) =
            ((migrateRetain oldMap newMap t rest).1,
              (newMap.getD (key_to_bin k) 0, SP.Pending t (k, m)) ::
                (migrateRetain oldMap newMap t rest).2) from by
              simp only [migrateRetain, if_pos hkm]]
          rw [List.filterMap_cons, ih.2]
          simp only [if_pos hkm]
  induction pending with
  | nil => exact ⟨rfl, rfl⟩
  | cons e rest ih =>
    obtain ⟨t, data⟩ := e
    refine ⟨?_, ?_⟩
    · simp only [notifMigrate, List.map_cons]
      rw [(hretain t data).1, ih.1]
    · simp only [notifMigrate, List.flatMap_cons]
      rw [(hretain t data).2, ih.2]

/-! ## Characterization of the bin-migration loop -/

/-- The migration condition for one `(old, new)` map pair on the worker with
this `index`: the bin changed assignment and the old owner is this worker. -/
@[reducible] def migCond (index peers : Nat) (p : Nat × Nat) : Prop :=
  p.1 % peers = index ∧ p.1 ≠ p.2

/-- The state-transfer messages produced for one migrating bin: a `Prepare`
followed by one `State` per contained chunk. -/
def groupEms (b target : Nat) (chunks : List Nat) : List (Nat × SP) :=
  (target, SP.Prepare b) :: chunks.map (fun s => (target, SP.State b s))

/-- Pointwise characterization of `migrateLoop`: when every migrating bin has
its contents present, the loop succeeds, replaces exactly the migrating bins
by `None`, and emits, in increasing bin order, a `Prepare` followed by the
`State` chunks of each migrating bin. -/
theorem migrateLoop_spec (index peers : Nat) :
    ∀ (pairs : List (Nat × Nat)) (b0 : Nat) (bins : List (Option (List Nat))),
    pairs.length ≤ bins.length →
    (∀ i, i < pairs.length → migCond index peers (pairs.getD i (0, 0)) →
      (bins.getD i Option.none).isSome) →
    ∃ bins' ems,
      migrateLoop index peers b0 pairs bins = some (bins', ems) ∧
      bins'.length = bins.length ∧
      (∀ i, i < pairs.length →
        bins'.getD i Option.none =
          if migCond index peers (pairs.getD i (0, 0)) then Option.none
          else bins.getD i Option.none) ∧
      (∀ i, pairs.length ≤ i → bins'.getD i Option.none = bins.getD i Option.none) ∧
      ems = (List.range pairs.length).flatMap (fun i =>
        if migCond index peers (pairs.getD i (0, 0)) then
          groupEms (b0 + i) (pairs.getD i (0, 0)).2 ((bins.getD i Option.none).getD [])
        else []) := by
  intro pairs
  induction pairs with
  | nil =>
    intro b0 bins _ _
    exact ⟨bins, [], rfl, rfl, fun i h => absurd h (by simp), fun _ _ => rfl, by simp⟩
  | cons p rest ih =>
    intro b0 bins hlen hsome
    obtain ⟨old, new⟩ := p
    cases bins with
    | nil => simp at hlen
    | cons slot binsRest =>
      have hlen' : rest.length ≤ binsRest.length := by
        simpa [Nat.succ_le_succ_iff] using hlen
      have hsome' : ∀ i, i < rest.length → migCond index peers (rest.getD i (0, 0)) →
          (binsRest.getD i Option.none).isSome := by
        intro i hi hm
        have := hsome (i + 1) (by simpa using Nat.succ_lt_succ hi)
        simpa using this (by simpa using hm)
      obtain ⟨bins'', ems'', hrec, hlen'', hin'', hout'', hems''⟩ :=
        ih (b0 + 1) binsRest hlen' hsome'
      by_cases hmig : migCond index peers (old, new)
      · have hslot : slot.isSome := by
          have := hsome 0 (by simp) (by simpa using hmig)
          simpa using this
        obtain ⟨chunks, rfl⟩ := Option.isSome_iff_exists.mp hslot
        refine ⟨Option.none :: bins'',
          groupEms b0 new chunks ++ ems'', ?_, by simpa using hlen'', ?_, ?_, ?_⟩
        · show migrateLoop index peers b0 ((old, new) :: rest) (some chunks :: binsRest) = _
          rw [show migrateLoop index peers b0 ((old, new) :: rest) (some chunks :: binsRest) =
            (match migrateLoop index peers (b0 + 1) rest binsRest with
              | Option.none => Option.none
              | some (bins', ems) =>
                some (Option.none :: bins',
                  ((new, SP.Prepare b0) :: chunks.map (fun s => (new, SP.State b0 s))) ++ ems))
            from by simp only [migrateLoop,
              if_pos (show old % peers = index ∧ old ≠ new from hmig)]]
          rw [hrec]
          rfl
        · intro i hi
          cases i with
          | zero =>
            simp only [List.getD_cons_zero]
            rw [if_pos hmig]
          | succ j =>
            have hj : j < rest.length := by simpa using hi
            simpa using hin'' j hj
        · intro i hi
          cases i with
          | zero => simp at hi
          | succ j =>
            have hj : rest.length ≤ j := by
              simp only [List.length_cons] at hi; omega
            simpa using hout'' j hj
        · rw [hems'']
          simp only [List.length_cons]
          rw [List.range_succ_eq_map, List.flatMap_cons, List.flatMap_map]
          simp only [List.getD_cons_zero, if_pos hmig, Option.getD_some, Nat.add_zero]
          congr 1
          apply List.flatMap_congr
          intro i _
          simp only [Function.comp, List.getD_cons_succ]
          have : b0 + 1 + i = b0 + (i + 1) := by omega
          rw [this]
      · refine ⟨slot :: bins'', ems'', ?_, by simpa using hlen'', ?_, ?_, ?_⟩
        · show migrateLoop index peers b0 ((old, new) :: rest) (slot :: binsRest) = _
          rw [show migrateLoop index peers b0 ((old, new) :: rest) (slot :: binsRest) =
            (match migrateLoop index peers (b0 + 1) rest binsRest with
              | Option.none => Option.none
              | some (bins', ems) => some (slot :: bins', ems))
            from by simp only [migrateLoop,
              if_neg (show ¬ (old % peers = index ∧ old ≠ new) from hmig)]]
          rw [hrec]
        · intro i hi
          cases i with
          | zero =>
            simp only [List.getD_cons_zero]
            rw [if_neg hmig]
          | succ j =>
            have hj : j < rest.length := by simpa using hi
            simpa using hin'' j hj
        · intro i hi
          cases i with
          | zero => simp at hi
          | succ j =>
            have hj : rest.length ≤ j := by
              simp only [List.length_cons] at hi; omega
            simpa using hout'' j hj
        · rw [hems'']
          simp only [List.length_cons]
          rw [List.range_succ_eq_map, List.flatMap_cons, List.flatMap_map]
          simp only [List.getD_cons_zero, if_neg hmig, List.nil_append]
          apply List.flatMap_congr
          intro i _
          simp only [Function.comp, List.getD_cons_succ]
          have : b0 + 1 + i = b0 + (i + 1) := by omega
          rw [this]

/-- `getD` on a zip of equally long lists. -/
theorem zip_getD (l1 l2 : List Nat) (i : Nat) (h1 : i < l1.length) (h2 : i < l2.length) :
    (l1.zip l2).getD i (0, 0) = (l1.getD i 0, l2.getD i 0) := by
  rw [List.getD_eq_getElem _ _ (by rw [List.length_zip]; omega), List.getElem_zip,
    List.getD_eq_getElem _ _ h1, List.getD_eq_getElem _ _ h2]

/-- C2: the head pending snapshot is installed exactly when every element of
its frontier is not less than the downstream probe's frontier; at
installation, every bin whose owner changes away from this worker is taken
(replaced by `None`) while `(next.map[b], Prepare(b))` followed by one
`(next.map[b], State(b, chunk))` per element of the taken container is
emitted, in bin order; afterwards the head is removed from the queue and
becomes the active snapshot. -/
theorem claim_C2_install (index peers : Nat) (probe : List Nat) (cfg : FConfig) (st : StateL) :
    (cfg.pending_configurations = [] →
      installPass index peers probe cfg st = some (cfg, st, [])) ∧
    (∀ next rest, cfg.pending_configurations = next :: rest →
      installableB next probe = false →
      installPass index peers probe cfg st = some (cfg, st, [])) ∧
    (∀ cs : ControlSetL, installableB cs probe = true ↔
      ∀ t ∈ cs.frontier, ¬ ∃ f ∈ probe, f < t) ∧
    (∀ next rest, cfg.pending_configurations = next :: rest →
      installableB next probe = true →
      next.map.length = cfg.active_configuration.map.length →
      cfg.active_configuration.map.length ≤ st.bins.length →
      (∀ b, b < cfg.active_configuration.map.length →
        cfg.active_configuration.map.getD b 0 % peers = index ∧
          cfg.active_configuration.map.getD b 0 ≠ next.map.getD b 0 →
        (st.bins.getD b Option.none).isSome) →
      ∃ st', installPass index peers probe cfg st =
          some (FConfig.mk rest next, st',
            (List.range cfg.active_configuration.map.length).flatMap (fun b =>
              if cfg.active_configuration.map.getD b 0 % peers = index ∧
                  cfg.active_configuration.map.getD b 0 ≠ next.map.getD b 0 then
                groupEms b (next.map.getD b 0) ((st.bins.getD b Option.none).getD [])
              else []) ++
            (notifMigrate cfg.active_configuration.map next.map st.notifPending).2) ∧
        st'.bins.length = st.bins.length ∧
        (∀ b, b < cfg.active_configuration.map.length →
          st'.bins.getD b Option.none =
            if cfg.active_configuration.map.getD b 0 % peers = index ∧
                cfg.active_configuration.map.getD b 0 ≠ next.map.getD b 0
            then Option.none else st.bins.getD b Option.none) ∧
        (∀ b, cfg.active_configuration.map.length ≤ b →
          st'.bins.getD b Option.none = st.bins.getD b Option.none) ∧
        st'.notifPending =
          (notifMigrate cfg.active_configuration.map next.map st.notifPending).1) := by
  refine ⟨?_, ?_, ?_, ?_⟩
  · intro h
    unfold installPass
    rw [h]
  · intro next rest hpend hinst
    unfold installPass
    rw [hpend]
    show (if installableB next probe = true then _ else _) = _
    rw [if_neg (by rw [hinst]; exact Bool.false_ne_true)]
  · intro cs
    unfold installableB
    rw [List.all_eq_true]
    constructor
    · intro h t ht hex
      obtain ⟨f, hf, hlt⟩ := hex
      have := h t ht
      rw [Bool.not_eq_true', List.any_eq_false] at this
      have := this f hf
      exact absurd hlt (by simpa using this)
    · intro h t ht
      rw [Bool.not_eq_true', List.any_eq_false]
      intro f hf
      by_cases hlt : f < t
      · exact absurd ⟨f, hf, hlt⟩ (h t ht)
      · simp [hlt]
  · intro next rest hpend hinst hlen2 hlenb hsome
    set oldMap := cfg.active_configuration.map with hOld
    set newMap := next.map with hNew
    have hplen : (oldMap.zip newMap).length = oldMap.length := by
      rw [List.length_zip, hlen2, Nat.min_self]
    obtain ⟨bins', ems, hml, hblen, hbin, hbout, hems⟩ :=
      migrateLoop_spec index peers (oldMap.zip newMap) 0 st.bins
        (by rw [hplen]; exact hlenb)
        (by
          intro i hi hm
          rw [hplen] at hi
          rw [zip_getD _ _ i hi (by omega)] at hm
          exact hsome i hi hm)
    have hwe : workerEmit index peers oldMap newMap st =
        some (StateL.mk bins' (notifMigrate oldMap newMap st.notifPending).1,
          ems ++ (notifMigrate oldMap newMap st.notifPending).2) := by
      unfold workerEmit
      rw [hml]
    have hstep : installPass index peers probe cfg st =
        some (FConfig.mk rest next,
          StateL.mk bins' (notifMigrate oldMap newMap st.notifPending).1,
          ems ++ (notifMigrate oldMap newMap st.notifPending).2) := by
      unfold installPass
      rw [hpend]
      show (if installableB next probe = true then _ else _) = _
      rw [if_pos hinst, hwe]
    have hemsEq : ems = (List.range oldMap.length).flatMap (fun b =>
        if oldMap.getD b 0 % peers = index ∧ oldMap.getD b 0 ≠ newMap.getD b 0 then
          groupEms b (newMap.getD b 0) ((st.bins.getD b Option.none).getD [])
        else []) := by
      rw [hems, hplen]
      apply List.flatMap_congr
      intro i hi
      have hi' : i < oldMap.length := List.mem_range.mp hi
      rw [zip_getD _ _ i hi' (by omega)]
      show (if migCond index peers (oldMap.getD i 0, newMap.getD i 0) then
        groupEms (0 + i) (newMap.getD i 0) ((st.bins.getD i Option.none).getD [])
        else []) = _
      rw [Nat.zero_add]
    refine ⟨StateL.mk bins' (notifMigrate oldMap newMap st.notifPending).1, ?_, hblen, ?_, ?_, rfl⟩
    · rw [hstep, hemsEq]
    · intro b hb
      have := hbin b (by rw [hplen]; exact hb)
      rw [zip_getD _ _ b hb (by omega)] at this
      show bins'.getD b Option.none = _
      rw [this]
    · intro b hb
      exact hbout b (by rw [hplen]; exact hb)

/-- Witness for C2: a two-bin, two-worker installation on worker 0 with the
snapshot moving bin 1 to worker 1. -/
theorem claim_C2_witness :
    ∃ st', installPass 0 2 [5]
        (FConfig.mk [ControlSetL.mk 1 [5] [0, 1]] (ControlSetL.mk 0 [0] [0, 0]))
        (StateL.mk [some [7], some [8, 9]] []) =
        some (FConfig.mk [] (ControlSetL.mk 1 [5] [0, 1]), st',
          (List.range (ControlSetL.mk 0 [0] [0, 0]).map.length).flatMap (fun b =>
            if (ControlSetL.mk 0 [0] [0, 0]).map.getD b 0 % 2 = 0 ∧
                (ControlSetL.mk 0 [0] [0, 0]).map.getD b 0 ≠
                  (ControlSetL.mk 1 [5] [0, 1]).map.getD b 0 then
              groupEms b ((ControlSetL.mk 1 [5] [0, 1]).map.getD b 0)
                (((StateL.mk [some [7], some [8, 9]] []).bins.getD b Option.none).getD [])
            else []) ++
          (notifMigrate [0, 0] [0, 1] []).2) ∧
      st'.bins.length = 2 ∧
      (∀ b, b < (ControlSetL.mk 0 [0] [0, 0]).map.length →
        st'.bins.getD b Option.none =
          if (ControlSetL.mk 0 [0] [0, 0]).map.getD b 0 % 2 = 0 ∧
              (ControlSetL.mk 0 [0] [0, 0]).map.getD b 0 ≠
                (ControlSetL.mk 1 [5] [0, 1]).map.getD b 0
          then Option.none
          else (StateL.mk [some [7], some [8, 9]] []).bins.getD b Option.none) := by
  obtain ⟨st', h1, h2, h3, _, _⟩ :=
    (claim_C2_install 0 2 [5]
      (FConfig.mk [ControlSetL.mk 1 [5] [0, 1]] (ControlSetL.mk 0 [0] [0, 0]))
      (StateL.mk [some [7], some [8, 9]] [])).2.2.2
      (ControlSetL.mk 1 [5] [0, 1]) [] rfl (by decide) (by decide) (by decide)
      (by decide)
  exact ⟨st', h1, h2, h3⟩

/-- C3: the data path of F.  A record batch at time `t` is stashed (with
nothing emitted) exactly when the control frontier has an element `≤ t`;
otherwise each record `d` is forwarded as `(map[bin], key, d)` where
`key` is the user hash of the record (a `u64`), `bin` is the top 8 bits of
the 64-bit key, and `map` comes from the latest pending snapshot whose
frontier is `≤ t`, falling back to the active snapshot; the stash drain
routes by the same rule. -/
theorem claim_C3_data_path (h : Nat → Nat) (controlFrontier : List Nat)
    (pending : List ControlSetL) (active : ControlSetL) (t : Nat) (data : List Nat)
    (stash : List (Nat × List (List Nat))) :
    (controlFrontier.any (fun f => decide (f ≤ t)) = true →
      dataArrival h controlFrontier pending active t data stash = (stashAdd stash t data, [])) ∧
    (controlFrontier.any (fun f => decide (f ≤ t)) = false →
      dataArrival h controlFrontier pending active t data stash =
        (stash, data.map (fun d =>
          ((selectMap pending active t).getD (key_to_bin (h d % 2 ^ 64)) 0,
            h d % 2 ^ 64, d)))) ∧
    ((∀ c ∈ pending, c.frontier.any (fun e => decide (e ≤ t)) = false) →
      selectMap pending active t = active.map) ∧
    (∀ l1 c l2, pending = l1 ++ c :: l2 →
      c.frontier.any (fun e => decide (e ≤ t)) = true →
      (∀ c' ∈ l2, c'.frontier.any (fun e => decide (e ≤ t)) = false) →
      selectMap pending active t = c.map) ∧
    (∀ d : Nat, key_to_bin (h d % 2 ^ 64) = (h d % 2 ^ 64) / 2 ^ 56 ∧
      key_to_bin (h d % 2 ^ 64) < 256) ∧
    (∀ entry, stash.find? (fun e => decide (e.1 = t)) = some entry →
      stashDrain h pending active t stash =
        (stash.filter (fun e => decide (e.1 ≠ t)),
          entry.2.flatMap (fun batch => batch.map (route h (selectMap pending active t))))) := by
  refine ⟨?_, ?_, ?_, ?_, ?_, ?_⟩
  · intro hcf
    unfold dataArrival
    rw [if_pos hcf]
  · intro hcf
    unfold dataArrival
    rw [if_neg (by rw [hcf]; exact Bool.false_ne_true)]
    rfl
  · intro hnone
    unfold selectMap
    rw [List.find?_eq_none.mpr (by
      intro c hc
      rw [List.mem_reverse] at hc
      rw [hnone c hc]
      exact Bool.false_ne_true)]
    rfl
  · intro l1 c l2 hsplit hc hafter
    unfold selectMap
    rw [hsplit, List.reverse_append, List.reverse_cons, List.append_assoc,
      List.find?_append, List.find?_eq_none.mpr (by
        intro c' hc'
        rw [List.mem_reverse] at hc'
        rw [hafter c' hc']
        exact Bool.false_ne_true)]
    simp [hc]
  · intro d
    constructor
    · show (h d % 2 ^ 64) >>> (64 - BIN_SHIFT) = _
      rw [Nat.shiftRight_eq_div_pow]
      rfl
    · show (h d % 2 ^ 64) >>> (64 - BIN_SHIFT) < 256
      rw [Nat.shiftRight_eq_div_pow]
      have hlt : h d % 2 ^ 64 < 2 ^ 64 := Nat.mod_lt _ (by norm_num)
      have : (2 : Nat) ^ 64 = 256 * 2 ^ (64 - BIN_SHIFT) := by norm_num [BIN_SHIFT]
      rw [Nat.div_lt_iff_lt_mul (by positivity)]
      omega
  · intro entry hfind
    unfold stashDrain
    rw [hfind]

/-- Witness for C3: a record at `t = 2` routed under the single pending
snapshot with frontier `[1]`, and a stash-drain for a stashed batch. -/
theorem claim_C3_witness :
    dataArrival (fun d => d * 2 ^ 56) [3] [ControlSetL.mk 1 [1] [0, 1]]
        (ControlSetL.mk 0 [0] [0, 0]) 2 [1] [] =
      ([], [1].map (fun d =>
        ((selectMap [ControlSetL.mk 1 [1] [0, 1]] (ControlSetL.mk 0 [0] [0, 0]) 2).getD
          (key_to_bin ((fun d => d * 2 ^ 56) d % 2 ^ 64)) 0,
          (fun d => d * 2 ^ 56) d % 2 ^ 64, d))) ∧
    selectMap [ControlSetL.mk 1 [1] [0, 1]] (ControlSetL.mk 0 [0] [0, 0]) 2 = [0, 1] :=
  ⟨(claim_C3_data_path (fun d => d * 2 ^ 56) [3] [ControlSetL.mk 1 [1] [0, 1]]
      (ControlSetL.mk 0 [0] [0, 0]) 2 [1] []).2.1 (by decide),
   (claim_C3_data_path (fun d => d * 2 ^ 56) [3] [ControlSetL.mk 1 [1] [0, 1]]
      (ControlSetL.mk 0 [0] [0, 0]) 2 [1] []).2.2.2.1 [] (ControlSetL.mk 1 [1] [0, 1]) []
      rfl (by decide) (by intro c' hc'; simp at hc')⟩

/-! ## The payload-carrying `FrontierNotificator` (`notificator.rs:162-394`)

The notificator state holds `pending` (capability/payload pairs), `enqueued`
(raw time/payload pairs awaiting a capability), `available` (a
`BinaryHeap<OrderReversed>` popped by minimal time, modelled as a list with
a `popMin` operation; among equal-time entries the heap's choice is
unspecified, the model takes the earliest-pushed one), and the lazily held
`capability`.  Payloads `D` are instantiated at `Nat`. -/

structure NState : Type where
  pending : List (Nat × List Nat)
  enqueued : List (Nat × List Nat)
  available : List (Nat × List Nat)
  capability : Option Nat
deriving DecidableEq, Repr

/-- `MutableAntichain::less_equal(t)` over the borrowed frontiers: some
frontier has an element `≤ t`, i.e. the time is still blocked. -/
def blockedB (fr : List (List Nat)) (t : Nat) : Bool :=
  fr.any (fun f => f.any (fun e => decide (e ≤ t)))

/-- `FrontierNotificator::notify_at` (`notificator.rs:221-223`): push the
capability and payload vector onto `pending`. -/
def notify_at (st : NState) (cap : Nat) (meta : List Nat) : NState :=
  { st with pending := st.pending ++ [(cap, meta)] }

/-- `FrontierNotificator::notify_at_frontiered` (`notificator.rs:232-238`):
push directly onto the available heap when no frontier is `≤` the
capability's time, otherwise onto `pending`. -/
def notify_at_frontiered (st : NState) (cap : Nat) (d : Nat) (fr : List (List Nat)) : NState :=
  if blockedB fr cap then { st with pending := st.pending ++ [(cap, [d])] }
  else { st with available := st.available ++ [(cap, [d])] }

/-- `FrontierNotificator::enqueue` (`notificator.rs:384-386`). -/
def NState.enqueueRaw (st : NState) (time : Nat) (data : List Nat) : NState :=
  { st with enqueued := st.enqueued ++ [(time, data)] }

/-- `FrontierNotificator::init_cap` (`notificator.rs:388-392`). -/
def init_cap (st : NState) (cap : Nat) : NState :=
  if st.capability.isNone then { st with capability := some cap } else st

/-- The `sort_by` on capability times inside `make_available`
(`notificator.rs:273`), a stable sort. -/
def sortPending (l : List (Nat × List Nat)) : List (Nat × List Nat) :=
  l.insertionSort (fun x y => x.1 ≤ y.1)

/-- The coalescing while-loop of `make_available`
(`notificator.rs:274-294`): each run of equal-time entries of the sorted
pending list is merged into its first entry (payloads concatenated in
order), and the remaining `k` members of the run are emptied in place.
`t`/`d` is the head of the current run, `k` how many members were merged. -/
def coalesceGo (t : Nat) (d : List Nat) (k : Nat) :
    List (Nat × List Nat) → List (Nat × List Nat)
  | [] => (t, d) :: List.replicate k (t, [])
  | (t', d') :: rest =>
    if t' = t then coalesceGo t (d ++ d') (k + 1) rest
    else ((t, d) :: List.replicate k (t, [])) ++ coalesceGo t' d' 0 rest

/-- Entry point of the coalescing loop. -/
def coalesce : List (Nat × List Nat) → List (Nat × List Nat)
  | [] => []
  | (t, d) :: rest => coalesceGo t d 0 rest

/-- The tail of `make_available` handling the pending list
(`notificator.rs:268-305`): if pending is nonempty, sort it, coalesce equal
times, retain only nonempty payloads, move every entry not blocked by the
frontiers onto the available heap, and retain the rest. -/
def mkAvailFinish (fr : List (List Nat)) (pending1 avail : List (Nat × List Nat))
    (cap : Option Nat) : NState :=
  if pending1 = [] then NState.mk [] [] avail cap
  else
    let kept := (coalesce (sortPending pending1)).filter (fun x => decide (x.2 ≠ []))
    NState.mk (kept.filter (fun x => blockedB fr x.1)) []
      (avail ++ kept.filter (fun x => ! blockedB fr x.1)) cap

/-- `FrontierNotificator::make_available` (`notificator.rs:241-306`).
The `assert!(enqueued.is_empty() || capability.is_some())` and the
`capability.as_ref().unwrap()` inside the downgrade check (which panics
when some frontier is nonempty but no capability is held) are modelled by
`Option.none`.  The held capability is downgraded to the minimum over the
frontiers' first elements and dropped when all frontiers are empty. -/
def makeAvailable (fr : List (List Nat)) (st : NState) : Option NState :=
  if st.enqueued ≠ [] ∧ st.capability = Option.none then Option.none
  else
    let pending1 := st.pending ++ st.enqueued
    match (fr.filterMap (fun f => f.head?)).min? with
    | some nt =>
      match st.capability with
      | Option.none => Option.none
      | some c =>
        let cap1 := if c < nt then some nt else some c
        let cap2 := if fr.all (fun f => f.isEmpty) then Option.none else cap1
        some (mkAvailFinish fr pending1 st.available cap2)
    | Option.none =>
      let cap2 := if fr.all (fun f => f.isEmpty) then Option.none else st.capability
      some (mkAvailFinish fr pending1 st.available cap2)

/-- Popping the available heap (`notificator.rs:318-321`): remove a
minimal-time entry, then drain entries equal to it (`while peek == front`).
The model takes the earliest-pushed minimal-time entry and removes all
identical copies. -/
def popMin (l : List (Nat × List Nat)) :
    Option ((Nat × List Nat) × List (Nat × List Nat)) :=
  match (l.map Prod.fst).min? with
  | Option.none => Option.none
  | some t =>
    match l.find? (fun x => decide (x.1 = t)) with
    | Option.none => Option.none
    | some front => some (front, l.filter (fun x => decide (x ≠ front)))

/-- `FrontierNotificator::next` (`notificator.rs:314-322`): refill the heap
through `make_available` when it is empty, then pop its minimum. -/
def nextN (fr : List (List Nat)) (st : NState) :
    Option (NState × Option (Nat × List Nat)) :=
  match (if st.available.isEmpty then makeAvailable fr st else some st) with
  | Option.none => Option.none
  | some st1 =>
    match popMin st1.available with
    | Option.none => some (st1, Option.none)
    | some (front, rest) => some ({ st1 with available := rest }, some front)

/-- The `while let Some(..) = self.next(..)` loop of `for_each`
(`notificator.rs:331-333`), with explicit fuel for the unbounded loop; the
session's `logic` receives the delivered time, its payload, and mutable
access to the notificator.  Returns the final state and the trace of
delivered notifications. -/
def forEachAux (fr : List (List Nat)) (logic : Nat → List Nat → NState → NState) :
    Nat → NState → Option (NState × List (Nat × List Nat))
  | 0, st => some (st, [])
  | Nat.succ fuel, st =>
    match nextN fr st with
    | Option.none => Option.none
    | some (st1, Option.none) => some (st1, [])
    | some (st1, some front) =>
      match forEachAux fr logic fuel (logic front.1 front.2 st1) with
      | Option.none => Option.none
      | some (st2, tr) => some (st2, front :: tr)

/-- `FrontierNotificator::for_each` (`notificator.rs:329-334`):
`make_available` followed by the `next` loop. -/
def forEachN (fuel : Nat) (fr : List (List Nat)) (logic : Nat → List Nat → NState → NState)
    (st : NState) : Option (NState × List (Nat × List Nat)) :=
  match makeAvailable fr st with
  | Option.none => Option.none
  | some st1 => forEachAux fr logic fuel st1

/-! ## Properties of the notificator -/

/-- `popMin` returns a member that is minimal in time, and keeps only
members. -/
theorem popMin_spec {l : List (Nat × List Nat)} {front : Nat × List Nat}
    {rest : List (Nat × List Nat)} (h : popMin l = some (front, rest)) :
    front ∈ l ∧ (∀ x ∈ rest, x ∈ l) ∧ (∀ x ∈ l, front.1 ≤ x.1) := by
  unfold popMin at h
  split at h
  · cases h
  · rename_i t hmin
    split at h
    · cases h
    · rename_i fr0 hfind
      simp only [Option.some.injEq, Prod.mk.injEq] at h
      obtain ⟨h1, h2⟩ := h
      have hmem : front ∈ l := h1 ▸ List.mem_of_find?_eq_some hfind
      have hfr1 : front.1 = t := by
        have hp := List.find?_some (p := fun x : Nat × List Nat => decide (x.1 = t)) hfind
        rw [← h1]
        simpa using hp
      rw [List.min?_eq_some_iff'] at hmin
      refine ⟨hmem, ?_, ?_⟩
      · intro x hx
        rw [← h2] at hx
        exact List.mem_of_mem_filter hx
      · intro x hx
        rw [hfr1]
        exact hmin.2 x.1 (List.mem_map_of_mem Prod.fst hx)

/-- Every entry produced by the coalescing loop either has an empty payload
or inherits its time from a nonempty source entry (the run head's
accumulator `d` at time `t`, or a member of the remaining list). -/
theorem coalesceGo_mem :
    ∀ (rest : List (Nat × List Nat)) (t : Nat) (d : List Nat) (k : Nat)
      (y : Nat × List Nat), y ∈ coalesceGo t d k rest →
      y.2 = [] ∨ (y.1 = t ∧ d ≠ []) ∨ ∃ x ∈ rest, x.1 = y.1 ∧ x.2 ≠ [] := by
  intro rest
  induction rest with
  | nil =>
    intro t d k y hy
    simp only [coalesceGo] at hy
    rcases List.mem_cons.mp hy with h | h
    · rcases eq_or_ne d [] with hd | hd
      · left; rw [h, hd]
      · right; left; rw [h]; exact ⟨rfl, hd⟩
    · left
      have := List.eq_of_mem_replicate h
      rw [this]
  | cons p rest ih =>
    intro t d k y hy
    obtain ⟨t', d'⟩ := p
    simp only [coalesceGo] at hy
    by_cases ht : t' = t
    · rw [if_pos ht] at hy
      rcases ih t (d ++ d') (k + 1) y hy with h | ⟨h1, h2⟩ | ⟨x, hx, hx1, hx2⟩
      · left; exact h
      · rcases eq_or_ne d [] with hd | hd
        · right; right
          refine ⟨(t', d'), List.mem_cons_self _ _, ?_, ?_⟩
          · show t' = y.1; rw [ht, h1]
          · show d' ≠ []
            intro hd'
            apply h2
            rw [hd, hd']
            rfl
        · right; left; exact ⟨h1, hd⟩
      · right; right; exact ⟨x, List.mem_cons_of_mem _ hx, hx1, hx2⟩
    · rw [if_neg ht] at hy
      rcases List.mem_append.mp hy with h | h
      · rcases List.mem_cons.mp h with h2 | h2
        · rcases eq_or_ne d [] with hd | hd
          · left; rw [h2, hd]
          · right; left; rw [h2]; exact ⟨rfl, hd⟩
        · left
          have := List.eq_of_mem_replicate h2
          rw [this]
      · rcases ih t' d' 0 y h with h2 | ⟨h1, h2⟩ | ⟨x, hx, hx1, hx2⟩
        · left; exact h2
        · right; right
          refine ⟨(t', d'), List.mem_cons_self _ _, ?_, h2⟩
          show t' = y.1; rw [h1]
        · right; right; exact ⟨x, List.mem_cons_of_mem _ hx, hx1, hx2⟩

/-- Every nonempty entry of the coalesced pending list inherits its time
from a nonempty entry of the original list. -/
theorem coalesce_mem {l : List (Nat × List Nat)} {y : Nat × List Nat}
    (hy : y ∈ coalesce l) :
    y.2 = [] ∨ ∃ x ∈ l, x.1 = y.1 ∧ x.2 ≠ [] := by
  cases l with
  | nil => simp [coalesce] at hy
  | cons p rest =>
    obtain ⟨t, d⟩ := p
    rcases coalesceGo_mem rest t d 0 y hy with h | ⟨h1, h2⟩ | ⟨x, hx, hx1, hx2⟩
    · left; exact h
    · right
      refine ⟨(t, d), List.mem_cons_self _ _, ?_, h2⟩
      show t = y.1; rw [h1]
    · right; exact ⟨x, List.mem_cons_of_mem _ hx, hx1, hx2⟩

/-- What the pending-handling tail of `make_available` guarantees: the
remaining pending entries are blocked and nonempty, and every newly
available entry is unblocked, nonempty, and stems from a nonempty entry of
the drained pending list. -/
theorem mkAvailFinish_spec (fr : List (List Nat)) (pending1 avail : List (Nat × List Nat))
    (cap : Option Nat) :
    (∀ x ∈ (mkAvailFinish fr pending1 avail cap).pending,
      blockedB fr x.1 = true ∧ x.2 ≠ []) ∧
    (mkAvailFinish fr pending1 avail cap).enqueued = [] ∧
    (∀ y ∈ (mkAvailFinish fr pending1 avail cap).available,
      y ∈ avail ∨ (blockedB fr y.1 = false ∧ y.2 ≠ [] ∧
        ∃ x ∈ pending1, x.1 = y.1 ∧ x.2 ≠ [])) := by
  unfold mkAvailFinish
  by_cases hp : pending1 = []
  · rw [if_pos hp]
    exact ⟨fun x hx => absurd hx (List.not_mem_nil x), rfl, fun y hy => Or.inl hy⟩
  · rw [if_neg hp]
    refine ⟨?_, rfl, ?_⟩
    · intro x hx
      have h1 := List.mem_filter.mp hx
      have h2 := List.mem_filter.mp h1.1
      exact ⟨h1.2, of_decide_eq_true h2.2⟩
    · intro y hy
      rcases List.mem_append.mp hy with h | h
      · exact Or.inl h
      · right
        have h1 := List.mem_filter.mp h
        have h2 := List.mem_filter.mp h1.1
        have hne : y.2 ≠ [] := of_decide_eq_true h2.2
        have hbl : blockedB fr y.1 = false := by
          have := h1.2
          rwa [Bool.not_eq_true'] at this
        rcases coalesce_mem h2.1 with h3 | ⟨x, hx, hx1, hx2⟩
        · exact absurd h3 hne
        · have hxp : x ∈ pending1 := by
            unfold sortPending at hx
            exact (List.perm_insertionSort _ pending1).mem_iff.mp hx
          exact ⟨hbl, hne, x, hxp, hx1, hx2⟩

/-- What a successful `make_available` guarantees about the resulting
state. -/
theorem makeAvailable_spec {fr : List (List Nat)} {st st' : NState}
    (h : makeAvailable fr st = some st') :
    (∀ x ∈ st'.pending, blockedB fr x.1 = true ∧ x.2 ≠ []) ∧
    st'.enqueued = [] ∧
    (∀ y ∈ st'.available, y ∈ st.available ∨ (blockedB fr y.1 = false ∧ y.2 ≠ [] ∧
      ∃ x ∈ st.pending ++ st.enqueued, x.1 = y.1 ∧ x.2 ≠ [])) := by
  unfold makeAvailable at h
  by_cases ha : st.enqueued ≠ [] ∧ st.capability = Option.none
  · rw [if_pos ha] at h; cases h
  · rw [if_neg ha] at h
    cases hmin : ((fr.filterMap (fun f => f.head?)).min?) with
    | some nt =>
      rw [hmin] at h
      cases hcap : st.capability with
      | none => rw [hcap] at h; cases h
      | some c =>
        rw [hcap] at h
        simp only [Option.some.injEq] at h
        rw [← h]
        exact mkAvailFinish_spec fr _ st.available _
    | none =>
      rw [hmin] at h
      simp only [Option.some.injEq] at h
      rw [← h]
      exact mkAvailFinish_spec fr _ st.available _

/-- C9: `make_available` removes from the pending list every entry whose
payload vector is empty; a notification registered with an empty payload
(e.g. `notify_at(cap, vec![])` or the capabilities installed by
`FrontierNotificator::from`) is discarded and never delivered by `next`
(and hence `for_each`, which delivers through `next`). -/
theorem claim_C9_empty_payload (fr : List (List Nat)) (st : NState) :
    (∀ st', makeAvailable fr st = some st' →
      (∀ x ∈ st'.pending, x.2 ≠ []) ∧
      ((∀ y ∈ st.available, y.2 ≠ []) → ∀ y ∈ st'.available, y.2 ≠ [])) ∧
    (∀ st1 front, nextN fr st = some (st1, some front) →
      (∀ y ∈ st.available, y.2 ≠ []) → front.2 ≠ []) ∧
    (∀ cap st', makeAvailable fr (notify_at st cap []) = some st' →
      ∀ x ∈ st'.pending, x.2 ≠ []) := by
  refine ⟨?_, ?_, ?_⟩
  · intro st' h
    obtain ⟨hpend, _, havail⟩ := makeAvailable_spec h
    refine ⟨fun x hx => (hpend x hx).2, ?_⟩
    intro hpre y hy
    rcases havail y hy with h1 | ⟨_, hne, _⟩
    · exact hpre y h1
    · exact hne
  · intro st1 front h hpre
    unfold nextN at h
    split at h
    · cases h
    · rename_i stx hstx
      split at h
      · simp at h
      · rename_i pr front' rest' hpop
        simp only [Option.some.injEq, Prod.mk.injEq] at h
        obtain ⟨_, h2⟩ := h
        obtain ⟨hmem, _, _⟩ := popMin_spec hpop
        by_cases he : st.available.isEmpty
        · rw [if_pos he] at hstx
          obtain ⟨_, _, havail⟩ := makeAvailable_spec hstx
          rcases havail front' hmem with h1 | ⟨_, hne, _⟩
          · rw [List.isEmpty_iff] at he
            rw [he] at h1
            cases h1
          · rw [← h2]; exact hne
        · rw [if_neg he] at hstx
          cases hstx
          rw [← h2]
          exact hpre front' hmem
  · intro cap st' h
    obtain ⟨hpend, _, _⟩ := makeAvailable_spec h
    exact fun x hx => (hpend x hx).2

/-- Witness for C9: an empty-payload registration at time 4 is dropped by
`make_available`, while the coexisting nonempty one survives. -/
theorem claim_C9_witness :
    ∃ st', makeAvailable [[0]] (NState.mk [(4, []), (4, [5])] [] [] (some 1)) = some st' ∧
      ∀ x ∈ st'.pending, x.2 ≠ [] :=
  ⟨_, rfl, ((claim_C9_empty_payload [[0]]
    (NState.mk [(4, []), (4, [5])] [] [] (some 1))).1 _ rfl).1⟩

/-- Behaviour of a successful `next` delivering a notification, on a state
whose pending entries are all blocked and whose enqueued list is empty: the
delivered time is bounded below by any lower bound of the available heap,
and the residual state keeps the invariants with the delivered time as the
new lower bound. -/
theorem nextN_some_spec {fr : List (List Nat)} {st st1 : NState}
    {front : Nat × List Nat}
    (henq : st.enqueued = [])
    (hpend : ∀ x ∈ st.pending, blockedB fr x.1 = true)
    (h : nextN fr st = some (st1, some front)) (last : Nat)
    (havail : ∀ x ∈ st.available, last ≤ x.1) :
    last ≤ front.1 ∧ (∀ x ∈ st1.available, front.1 ≤ x.1) ∧
    (∀ x ∈ st1.pending, blockedB fr x.1 = true) ∧ st1.enqueued = [] := by
  unfold nextN at h
  split at h
  · cases h
  · rename_i stx hstx
    split at h
    · simp at h
    · rename_i pr front' rest' hpop
      simp only [Option.some.injEq, Prod.mk.injEq] at h
      obtain ⟨h1, h2⟩ := h
      obtain ⟨hmem, hsub, hmin⟩ := popMin_spec hpop
      by_cases he : st.available.isEmpty
      · rw [if_pos he] at hstx
        obtain ⟨_, _, hav⟩ := makeAvailable_spec hstx
        rcases hav front' hmem with hmm | ⟨hunbl, _, x, hx, hx1, _⟩
        · rw [List.isEmpty_iff] at he
          rw [he] at hmm
          cases hmm
        · rw [henq, List.append_nil] at hx
          have hbl := hpend x hx
          rw [hx1] at hbl
          rw [hbl] at hunbl
          cases hunbl
      · rw [if_neg he] at hstx
        cases hstx
        refine ⟨?_, ?_, ?_, ?_⟩
        · rw [← h2]
          exact havail front' hmem
        · intro x hx
          rw [← h1] at hx
          rw [← h2]
          exact hmin x (hsub x hx)
        · intro x hx
          rw [← h1] at hx
          exact hpend x hx
        · rw [← h1]
          exact henq

/-- Within a `for_each` session over fixed frontiers, if the callback only
adds blocked pending entries and available entries at times not less than
the time being delivered (and never enqueues raw times), then the delivered
trace is non-decreasing and bounded below by any lower bound of the
initial heap. -/
theorem forEachAux_chain (fr : List (List Nat)) (logic : Nat → List Nat → NState → NState)
    (hlogic : ∀ t d s,
      (∀ x ∈ (logic t d s).pending, x ∈ s.pending ∨ blockedB fr x.1 = true) ∧
      (∀ x ∈ (logic t d s).available, x ∈ s.available ∨ t ≤ x.1) ∧
      (logic t d s).enqueued = s.enqueued) :
    ∀ (fuel : Nat) (st : NState) (last : Nat) (st' : NState)
      (tr : List (Nat × List Nat)),
      st.enqueued = [] →
      (∀ x ∈ st.pending, blockedB fr x.1 = true) →
      (∀ x ∈ st.available, last ≤ x.1) →
      forEachAux fr logic fuel st = some (st', tr) →
      List.Chain' (fun a b => a.1 ≤ b.1) tr ∧ ∀ y ∈ tr, last ≤ y.1 := by
  intro fuel
  induction fuel with
  | zero =>
    intro st last st' tr _ _ _ h
    simp only [forEachAux, Option.some.injEq, Prod.mk.injEq] at h
    rw [← h.2]
    exact ⟨List.chain'_nil, fun y hy => absurd hy (List.not_mem_nil y)⟩
  | succ fuel ih =>
    intro st last st' tr henq hpend havail h
    simp only [forEachAux] at h
    split at h
    · cases h
    · rename_i st1 hnext
      simp only [Option.some.injEq, Prod.mk.injEq] at h
      rw [← h.2]
      exact ⟨List.chain'_nil, fun y hy => absurd hy (List.not_mem_nil y)⟩
    · rename_i st1 front hnext
      split at h
      · cases h
      · rename_i st2 tr2 hrec
        simp only [Option.some.injEq, Prod.mk.injEq] at h
        obtain ⟨hlast, hav1, hp1, he1⟩ := nextN_some_spec henq hpend hnext last havail
        have hst3 := hlogic front.1 front.2 st1
        obtain ⟨hchain, hbound⟩ := ih (logic front.1 front.2 st1) front.1 st2 tr2
          (by rw [hst3.2.2]; exact he1)
          (by
            intro x hx
            rcases hst3.1 x hx with h1 | h1
            · exact hp1 x h1
            · exact h1)
          (by
            intro x hx
            rcases hst3.2.1 x hx with h1 | h1
            · exact hav1 x h1
            · exact h1)
          hrec
        rw [← h.2]
        constructor
        · rw [List.chain'_cons']
          refine ⟨?_, hchain⟩
          intro b hb
          exact hbound b (List.mem_of_mem_head? hb)
        · intro y hy
          rcases List.mem_cons.mp hy with h1 | h1
          · rw [h1]; exact hlast
          · exact le_trans hlast (hbound y h1)

/-- C8 as stated is false: the delivered times of a single `for_each`
session need not be non-decreasing when a notification at a smaller,
unblocked time is registered partway through the session.  Here the
callback, upon delivery of time 5, registers time 3 via `notify_at`; the
session delivers 5 and then 3. -/
theorem claim_C8_counterexample :
    (forEachN 5 [[]] (fun t _ st => if t = 5 then notify_at st 3 [2] else st)
        (NState.mk [(5, [1])] [] [] Option.none)).map
      (fun p => p.2.map Prod.fst) = some [5, 3] ∧
    ¬ List.Chain' (fun a b : Nat => a ≤ b) [5, 3] :=
  ⟨by decide, by
    intro hch
    rw [List.chain'_cons] at hch
    exact absurd hch.1 (by omega)⟩

/-- C8, amended: for every `FrontierNotificator` and fixed input frontiers,
the delivered times of a single `for_each` session are non-decreasing,
provided the session's callback registers notifications only at times that
are still blocked by the frontiers or not less than the time currently
being delivered (as `notify_at_frontiered` with the session's frontiers
does), and does not enqueue raw times.  This is the proviso the code's own
documentation states (`notificator.rs:11-13, 227-230`); the unrestricted
claim fails (`claim_C8_counterexample`). -/
theorem claim_C8_amended (fr : List (List Nat)) (logic : Nat → List Nat → NState → NState)
    (hlogic : ∀ t d s,
      (∀ x ∈ (logic t d s).pending, x ∈ s.pending ∨ blockedB fr x.1 = true) ∧
      (∀ x ∈ (logic t d s).available, x ∈ s.available ∨ t ≤ x.1) ∧
      (logic t d s).enqueued = s.enqueued) :
    ∀ (fuel : Nat) (st st' : NState) (tr : List (Nat × List Nat)),
      st.enqueued = [] →
      forEachN fuel fr logic st = some (st', tr) →
      List.Chain' (fun a b => a.1 ≤ b.1) tr := by
  intro fuel st st' tr henq h
  unfold forEachN at h
  cases hma : makeAvailable fr st with
  | none => rw [hma] at h; cases h
  | some st1 =>
    rw [hma] at h
    obtain ⟨hp, he, _⟩ := makeAvailable_spec hma
    exact (forEachAux_chain fr logic hlogic fuel st1 0 st' tr he
      (fun x hx => (hp x hx).1) (fun x _ => Nat.zero_le x.1) h).1

/-- Witness for the amended C8: a session over two unblocked pending
notifications with a callback that registers nothing delivers times in
non-decreasing order. -/
theorem claim_C8_witness :
    ∃ st' tr, forEachN 3 [[]] (fun _ _ s => s)
        (NState.mk [(5, [1]), (3, [2])] [] [] Option.none) = some (st', tr) ∧
      List.Chain' (fun a b => a.1 ≤ b.1) tr := by
  refine ⟨_, _, rfl, ?_⟩
  exact claim_C8_amended [[]] (fun _ _ s => s)
    (fun _ _ s => ⟨fun x hx => Or.inl hx, fun x hx => Or.inl hx, rfl⟩)
    3 (NState.mk [(5, [1]), (3, [2])] [] [] Option.none) _ _ rfl rfl

/-! ## The global protocol model for unique ownership (C1)

All `P` workers consume the same control stream, so they compile the same
snapshot sequence and the probe-gated installation condition fires on the
same snapshots on every worker.  One protocol step therefore installs one
new map on every worker: each worker's F runs its take/emit pass
(`workerEmit`, from `stateful.rs:338-368`), and the emitted
`StateProtocol` messages are routed over the exchange channel by
`target % peers` (`stateful.rs:420`) and applied by the receiving S
(`applySP`, from `stateful.rs:431-443`).  The step is the synchronous
composition of these embedded per-worker functions. -/

/-- The default state used by out-of-range `getD` lookups. -/
def dfltState : StateL := StateL.mk [] []

/-- A global protocol state: the (shared) active map and each worker's
state store. -/
structure Global : Type where
  map : List Nat
  states : List StateL
deriving DecidableEq, Repr

/-- Worker `w`'s bin `b` in a list of per-worker stores. -/
def binsAt (states : List StateL) (w b : Nat) : Option (List Nat) :=
  ((states.getD w dfltState).bins).getD b Option.none

/-- Every worker runs its F-side take/emit pass; `w` is the index of the
first remaining worker. -/
def workersEmit (P : Nat) (oldMap newMap : List Nat) :
    Nat → List StateL → Option (List StateL × List (Nat × SP))
  | _, [] => some ([], [])
  | w, stw :: rest =>
    match workerEmit w P oldMap newMap stw with
    | Option.none => Option.none
    | some (stw', ems) =>
      match workersEmit P oldMap newMap (w + 1) rest with
      | Option.none => Option.none
      | some (rest', emsRest) => some (stw' :: rest', ems ++ emsRest)

/-- Delivery of one state-transfer message: route by `target % P`
(the exchange pact) and apply it to the receiving worker's store. -/
def deliverOne (P : Nat) (states : List StateL) (em : Nat × SP) : Option (List StateL) :=
  match states[em.1 % P]? with
  | Option.none => Option.none
  | some stw =>
    match applySP stw em.2 with
    | Option.none => Option.none
    | some stw' => some (states.set (em.1 % P) stw')

/-- Delivery of a sequence of state-transfer messages in order. -/
def deliver (P : Nat) (ems : List (Nat × SP)) (states : List StateL) :
    Option (List StateL) :=
  ems.foldlM (deliverOne P) states

/-- One global installation step: all workers take and emit, then all
emitted messages are delivered. -/
def globalInstall (P : Nat) (newMap : List Nat) (g : Global) : Option Global :=
  match workersEmit P g.map newMap 0 g.states with
  | Option.none => Option.none
  | some (states1, ems) =>
    match deliver P ems states1 with
    | Option.none => Option.none
    | some states2 => some (Global.mk newMap states2)

/-- The initial global state (`stateful.rs:191-197, 233-238`): worker 0's
bins are all `Some(Default::default())`, every other worker's are `None`,
and the initial active map is all zeroes. -/
def initGlobal (P : Nat) : Global :=
  Global.mk (List.replicate NBINS 0)
    ((List.range P).map (fun w =>
      StateL.mk (List.replicate NBINS (if w = 0 then some [] else Option.none)) []))

/-- One protocol step: installing some well-formed new map (compiled from
the shared control stream; its workers lie in `[0, P)` per the spec's Map
invariant) simultaneously on all workers. -/
def GStep (P : Nat) (g g' : Global) : Prop :=
  ∃ m, m.length = NBINS ∧ (∀ v ∈ m, v < P) ∧ globalInstall P m g = some g'

/-- Reachability from the initial state by protocol steps. -/
def ReachableG (P : Nat) (g : Global) : Prop :=
  Relation.ReflTransGen (GStep P) (initGlobal P) g

/-- The ownership invariant: the active map is well-formed, each worker has
`NBINS` bin slots, and bin `b` is `Some` on worker `w` iff `w` is the
worker named by entry `b` of the active map. -/
def GInv (P : Nat) (g : Global) : Prop :=
  g.map.length = NBINS ∧ (∀ v ∈ g.map, v < P) ∧ g.states.length = P ∧
  (∀ w, w < P → (g.states.getD w dfltState).bins.length = NBINS) ∧
  (∀ w, w < P → ∀ b, b < NBINS →
    ((binsAt g.states w b).isSome ↔ w = g.map.getD b 0))

/-- A delivery segment: either one `Pending` message or the
`Prepare`-then-`State`s group of one migrating bin. -/
inductive Seg : Type where
  | pend (em : Nat × SP)
  | group (b : Nat) (tgt : Nat) (chunks : List Nat)
deriving DecidableEq, Repr

/-- The messages of a segment. -/
def Seg.ems : Seg → List (Nat × SP)
  | Seg.pend em => [em]
  | Seg.group b tgt chunks => groupEms b tgt chunks

/-- A `pend` segment really carries a `Pending` message. -/
def SegOK : Seg → Prop
  | Seg.pend em => ∃ t d, em.2 = SP.Pending t d
  | Seg.group _ _ _ => True

/-- The `(bin, target, chunks)` triples of the group segments. -/
def segGroups (segs : List Seg) : List (Nat × Nat × List Nat) :=
  segs.filterMap (fun s =>
    match s with
    | Seg.group b tgt chunks => some (b, tgt, chunks)
    | Seg.pend _ => Option.none)

/-! ## List helpers for the delivery proofs -/

theorem getD_set_self {α : Type} (l : List α) (i : Nat) (a d : α) (h : i < l.length) :
    (l.set i a).getD i d = a := by
  rw [List.getD_eq_getElem _ _ (by simpa using h)]
  simp [List.getElem_set]

theorem getD_set_ne {α : Type} (l : List α) (i j : Nat) (a d : α) (h : i ≠ j) :
    (l.set i a).getD j d = l.getD j d := by
  simp [List.getD_eq_getElem?_getD, List.getElem?_set_ne h]

theorem getD_mem {α : Type} {l : List α} {i : Nat} (d : α) (h : i < l.length) :
    l.getD i d ∈ l := by
  rw [List.getD_eq_getElem _ _ h]
  exact List.getElem_mem h

theorem set_getD_self {α : Type} (l : List α) (i : Nat) (d : α) (h : i < l.length) :
    l.set i (l.getD i d) = l := by
  rw [List.getD_eq_getElem _ _ h]
  apply List.ext_getElem
  · simp
  · intro j h1 h2
    simp only [List.getElem_set]
    split
    · rename_i he
      subst he
      rfl
    · rfl

theorem getElem?_eq_some_getD {α : Type} (l : List α) (i : Nat) (d : α) (h : i < l.length) :
    l[i]? = some (l.getD i d) := by
  rw [List.getElem?_eq_getElem h, List.getD_eq_getElem _ _ h]

theorem binsAt_set_self {states : List StateL} {i : Nat} (st : StateL)
    (h : i < states.length) (b : Nat) :
    binsAt (states.set i st) i b = st.bins.getD b Option.none := by
  unfold binsAt
  rw [getD_set_self _ _ _ _ h]

theorem binsAt_set_ne {states : List StateL} {i w : Nat} (st : StateL) (h : i ≠ w) (b : Nat) :
    binsAt (states.set i st) w b = binsAt states w b := by
  unfold binsAt
  rw [getD_set_ne _ _ _ _ _ h]

/-! ## Delivery lemmas -/

/-- Delivering one `Pending` message touches only the receiving worker's
notificator: all bin slots are unchanged. -/
theorem deliverOne_pending {P : Nat} (hP : 0 < P) (states : List StateL)
    (hlen : states.length = P) (tgt t : Nat) (d : Nat × Nat) :
    ∃ states', deliverOne P states (tgt, SP.Pending t d) = some states' ∧
      states'.length = P ∧
      (∀ w b, binsAt states' w b = binsAt states w b) ∧
      (∀ w, (states'.getD w dfltState).bins.length =
        (states.getD w dfltState).bins.length) := by
  have hi : tgt % P < states.length := by rw [hlen]; exact Nat.mod_lt _ hP
  refine ⟨states.set (tgt % P)
    (StateL.mk (states.getD (tgt % P) dfltState).bins
      ((states.getD (tgt % P) dfltState).notifPending ++ [(t, [d])])), ?_, ?_, ?_, ?_⟩
  · unfold deliverOne
    rw [show (tgt, SP.Pending t d).1 % P = tgt % P from rfl,
      getElem?_eq_some_getD states (tgt % P) dfltState hi]
    rfl
  · rw [List.length_set, hlen]
  · intro w b
    by_cases hw : tgt % P = w
    · subst hw
      rw [binsAt_set_self _ hi]
      rfl
    · rw [binsAt_set_ne _ hw]
  · intro w
    by_cases hw : tgt % P = w
    · subst hw
      rw [getD_set_self _ _ _ _ hi]
    · rw [getD_set_ne _ _ _ _ _ hw]

/-- Delivering the `State` chunk messages of one bin extends that bin's
container, chunk by chunk, leaving everything else unchanged. -/
theorem deliver_chunks (P : Nat) (tgt b : Nat) :
    ∀ (ch acc : List Nat) (states : List StateL),
    tgt % P < states.length →
    b < (states.getD (tgt % P) dfltState).bins.length →
    binsAt states (tgt % P) b = some acc →
    deliver P (ch.map (fun s => (tgt, SP.State b s))) states =
      some (states.set (tgt % P)
        (StateL.mk ((states.getD (tgt % P) dfltState).bins.set b (some (acc ++ ch)))
          ((states.getD (tgt % P) dfltState).notifPending))) := by
  intro ch
  induction ch with
  | nil =>
    intro acc states hi hb hacc
    show some states = _
    rw [List.append_nil]
    unfold binsAt at hacc
    rw [← hacc, set_getD_self _ _ _ hb]
    rw [set_getD_self states (tgt % P) dfltState hi]
  | cons s ch ih =>
    intro acc states hi hb hacc
    unfold binsAt at hacc
    have hget : (states.getD (tgt % P) dfltState).bins[b]? = some (some acc) := by
      rw [getElem?_eq_some_getD _ _ Option.none hb, hacc]
    have hstep : deliverOne P states (tgt, SP.State b s) =
        some (states.set (tgt % P)
          (StateL.mk ((states.getD (tgt % P) dfltState).bins.set b (some (acc ++ [s])))
            ((states.getD (tgt % P) dfltState).notifPending))) := by
      unfold deliverOne
      rw [show (tgt, SP.State b s).1 % P = tgt % P from rfl,
        getElem?_eq_some_getD states (tgt % P) dfltState hi]
      show (match applySP (states.getD (tgt % P) dfltState) (SP.State b s) with
        | Option.none => Option.none
        | some stw' => some (states.set (tgt % P) stw')) = _
      rw [show applySP (states.getD (tgt % P) dfltState) (SP.State b s) =
        some (StateL.mk ((states.getD (tgt % P) dfltState).bins.set b (some (acc ++ [s])))
          ((states.getD (tgt % P) dfltState).notifPending)) from by
        simp only [applySP]
        rw [hget]]
    show deliver P ((tgt, SP.State b s) :: ch.map (fun s => (tgt, SP.State b s))) states = _
    unfold deliver
    rw [List.foldlM_cons]
    show (deliverOne P states (tgt, SP.State b s)).bind _ = _
    rw [hstep]
    show deliver P (ch.map (fun s => (tgt, SP.State b s))) _ = _
    rw [ih (acc ++ [s]) _
      (by rw [List.length_set]; exact hi)
      (by rw [getD_set_self _ _ _ _ hi]; simpa using hb)
      (by rw [binsAt_set_self _ hi, getD_set_self _ _ _ _ hb])]
    rw [getD_set_self _ _ _ _ hi]
    rw [List.set_set, List.set_set]
    rw [show acc ++ [s] ++ ch = acc ++ s :: ch from by simp]

/-- Delivering the `Prepare`-then-`State`s group of one migrating bin sets
the receiving worker's slot to the shipped container, requiring the slot
to be `None`. -/
theorem deliver_group {P : Nat} (b tgt : Nat) (ch : List Nat)
    (states : List StateL)
    (hi : tgt % P < states.length)
    (hb : b < (states.getD (tgt % P) dfltState).bins.length)
    (hnone : binsAt states (tgt % P) b = Option.none) :
    deliver P (groupEms b tgt ch) states =
      some (states.set (tgt % P)
        (StateL.mk ((states.getD (tgt % P) dfltState).bins.set b (some ch))
          ((states.getD (tgt % P) dfltState).notifPending))) := by
  unfold binsAt at hnone
  have hget : (states.getD (tgt % P) dfltState).bins[b]? = some Option.none := by
    rw [getElem?_eq_some_getD _ _ Option.none hb, hnone]
  have hstep : deliverOne P states (tgt, SP.Prepare b) =
      some (states.set (tgt % P)
        (StateL.mk ((states.getD (tgt % P) dfltState).bins.set b (some []))
          ((states.getD (tgt % P) dfltState).notifPending))) := by
    unfold deliverOne
    rw [show (tgt, SP.Prepare b).1 % P = tgt % P from rfl,
      getElem?_eq_some_getD states (tgt % P) dfltState hi]
    show (match applySP (states.getD (tgt % P) dfltState) (SP.Prepare b) with
      | Option.none => Option.none
      | some stw' => some (states.set (tgt % P) stw')) = _
    rw [show applySP (states.getD (tgt % P) dfltState) (SP.Prepare b) =
      some (StateL.mk ((states.getD (tgt % P) dfltState).bins.set b (some []))
        ((states.getD (tgt % P) dfltState).notifPending)) from by
      simp only [applySP]
      rw [hget]]
  show deliver P ((tgt, SP.Prepare b) :: ch.map (fun s => (tgt, SP.State b s))) states = _
  unfold deliver
  rw [List.foldlM_cons]
  show (deliverOne P states (tgt, SP.Prepare b)).bind _ = _
  rw [hstep]
  show deliver P (ch.map (fun s => (tgt, SP.State b s))) _ = _
  rw [deliver_chunks P tgt b ch [] _
    (by rw [List.length_set]; exact hi)
    (by rw [getD_set_self _ _ _ _ hi]; simpa using hb)
    (by rw [binsAt_set_self _ hi, getD_set_self _ _ _ _ hb])]
  rw [getD_set_self _ _ _ _ hi]
  rw [List.set_set, List.set_set]
  rw [List.nil_append]

/-- `find?` by key on a list with nodup keys finds exactly the member. -/
theorem find?_key_of_nodup :
    ∀ (l : List (Nat × Nat × List Nat)),
    (l.map (fun g => g.1)).Nodup →
    ∀ x ∈ l, l.find? (fun g => decide (g.1 = x.1)) = some x := by
  intro l
  induction l with
  | nil => intro _ x hx; exact absurd hx (List.not_mem_nil x)
  | cons y rest ih =>
    intro hnd x hx
    rw [List.map_cons, List.nodup_cons] at hnd
    by_cases hy : y.1 = x.1
    · rw [List.find?_cons_of_pos _ (by simpa using hy)]
      rcases List.mem_cons.mp hx with h | h
      · rw [h]
      · exact absurd (hy ▸ List.mem_map_of_mem (fun g => g.1) h) hnd.1
    · rw [List.find?_cons_of_neg _ (by simpa using hy)]
      rcases List.mem_cons.mp hx with h | h
      · exact absurd (congrArg (fun g => g.1) h.symm) hy
      · exact ih hnd.2 x h

/-- Splitting a delivery over an appended message list. -/
theorem deliver_append (P : Nat) (e1 e2 : List (Nat × SP)) (states : List StateL) :
    deliver P (e1 ++ e2) states =
      (deliver P e1 states).bind (fun s => deliver P e2 s) :=
  foldlM_append_option (deliverOne P) states e1 e2

/-- Delivering a list of segments — single `Pending` messages and
`Prepare`/`State` groups for pairwise distinct bins whose target slots are
free — succeeds; a grouped bin is set to its shipped container on the
target worker and every other slot is unchanged. -/
theorem segsDeliver (P : Nat) (hP : 0 < P) :
    ∀ (segs : List Seg) (states : List StateL),
    states.length = P →
    (∀ s ∈ segs, SegOK s) →
    ((segGroups segs).map (fun g => g.1)).Nodup →
    (∀ gr ∈ segGroups segs,
      gr.1 < (states.getD (gr.2.1 % P) dfltState).bins.length ∧
      binsAt states (gr.2.1 % P) gr.1 = Option.none) →
    ∃ states', deliver P (segs.flatMap Seg.ems) states = some states' ∧
      states'.length = P ∧
      (∀ w, (states'.getD w dfltState).bins.length =
        (states.getD w dfltState).bins.length) ∧
      (∀ w b gr, (segGroups segs).find? (fun g => decide (g.1 = b)) = some gr →
        binsAt states' w b =
          if w = gr.2.1 % P then some gr.2.2 else binsAt states w b) ∧
      (∀ w b, (segGroups segs).find? (fun g => decide (g.1 = b)) = Option.none →
        binsAt states' w b = binsAt states w b) := by
  intro segs
  induction segs with
  | nil =>
    intro states hlen _ _ _
    refine ⟨states, rfl, hlen, fun w => rfl, ?_, fun w b _ => rfl⟩
    intro w b gr hgr
    exact absurd hgr (by simp [segGroups])
  | cons s rest ih =>
    intro states hlen hok hnd hpre
    cases s with
    | pend em =>
      obtain ⟨t, d, hem⟩ := hok (Seg.pend em) (List.mem_cons_self _ _)
      have hGrest : segGroups (Seg.pend em :: rest) = segGroups rest := by
        unfold segGroups
        rw [List.filterMap_cons]
      obtain ⟨states1, hdel1, hlen1, hbins1, hblen1⟩ :=
        deliverOne_pending hP states hlen em.1 t d
      have hem2 : (em.1, SP.Pending t d) = em := by
        rw [← hem]
      rw [hem2] at hdel1
      obtain ⟨states2, hdel2, hlen2, hblen2, hfind2, hnone2⟩ := ih states1 hlen1
        (fun s hs => hok s (List.mem_cons_of_mem _ hs))
        (by rw [hGrest] at hnd; exact hnd)
        (by
          intro gr hgr
          have := hpre gr (by rw [hGrest]; exact hgr)
          rw [hblen1, hbins1]
          exact this)
      refine ⟨states2, ?_, hlen2, ?_, ?_, ?_⟩
      · show deliver P (Seg.ems (Seg.pend em) ++ rest.flatMap Seg.ems) states = some states2
        rw [show Seg.ems (Seg.pend em) = [em] from rfl]
        unfold deliver
        rw [List.cons_append, List.nil_append, List.foldlM_cons]
        show (deliverOne P states em).bind _ = _
        rw [hdel1]
        exact hdel2
      · intro w
        rw [hblen2, hblen1]
      · intro w b gr hgr
        rw [hGrest] at hgr
        rw [hfind2 w b gr hgr, hbins1]
      · intro w b hb
        rw [hGrest] at hb
        rw [hnone2 w b hb, hbins1]
    | group b tgt ch =>
      have hGcons : segGroups (Seg.group b tgt ch :: rest) =
          (b, tgt, ch) :: segGroups rest := by
        unfold segGroups
        rw [List.filterMap_cons]
      rw [hGcons] at hnd hpre
      rw [List.map_cons, List.nodup_cons] at hnd
      obtain ⟨hb, hnone⟩ := hpre (b, tgt, ch) (List.mem_cons_self _ _)
      have hi : tgt % P < states.length := by
        rw [hlen]
        exact Nat.mod_lt _ hP
      have hdel1 := deliver_group b tgt ch states hi hb hnone
      have hbins1 : ∀ w b', binsAt (states.set (tgt % P)
          (StateL.mk ((states.getD (tgt % P) dfltState).bins.set b (some ch))
            ((states.getD (tgt % P) dfltState).notifPending))) w b' =
          if w = tgt % P ∧ b' = b then some ch else binsAt states w b' := by
        intro w b'
        by_cases hw : tgt % P = w
        · subst hw
          rw [binsAt_set_self _ hi]
          by_cases hbb : b' = b
          · subst hbb
            rw [getD_set_self _ _ _ _ hb, if_pos ⟨rfl, rfl⟩]
          · rw [getD_set_ne _ _ _ _ _ (fun hc => hbb hc.symm),
              if_neg (fun hc => hbb hc.2)]
            rfl
        · rw [binsAt_set_ne _ hw, if_neg (fun hc => hw hc.1.symm)]
      have hblen1 : ∀ w, (((states.set (tgt % P)
          (StateL.mk ((states.getD (tgt % P) dfltState).bins.set b (some ch))
            ((states.getD (tgt % P) dfltState).notifPending))).getD w dfltState).bins.length) =
          (states.getD w dfltState).bins.length := by
        intro w
        by_cases hw : tgt % P = w
        · subst hw
          rw [getD_set_self _ _ _ _ hi]
          simp
        · rw [getD_set_ne _ _ _ _ _ hw]
      have hlen1 : (states.set (tgt % P)
          (StateL.mk ((states.getD (tgt % P) dfltState).bins.set b (some ch))
            ((states.getD (tgt % P) dfltState).notifPending))).length = P := by
        rw [List.length_set]
        exact hlen
      obtain ⟨states2, hdel2, hlen2, hblen2, hfind2, hnone2⟩ :=
        ih (states.set (tgt % P)
          (StateL.mk ((states.getD (tgt % P) dfltState).bins.set b (some ch))
            ((states.getD (tgt % P) dfltState).notifPending)))
        hlen1
        (fun s hs => hok s (List.mem_cons_of_mem _ hs))
        hnd.2
        (by
          intro gr hgr
          obtain ⟨hgr1, hgr2⟩ := hpre gr (List.mem_cons_of_mem _ hgr)
          have hgrb : gr.1 ≠ b := by
            intro hc
            exact hnd.1 (hc ▸ List.mem_map_of_mem (fun g => g.1) hgr)
          constructor
          · rw [hblen1]
            exact hgr1
          · rw [hbins1, if_neg (fun hc => hgrb hc.2)]
            exact hgr2)
      refine ⟨states2, ?_, hlen2, ?_, ?_, ?_⟩
      · show deliver P (Seg.ems (Seg.group b tgt ch) ++ rest.flatMap Seg.ems) states =
          some states2
        rw [show Seg.ems (Seg.group b tgt ch) = groupEms b tgt ch from rfl]
        rw [deliver_append, hdel1]
        exact hdel2
      · intro w
        rw [hblen2, hblen1]
      · intro w b' gr hgr
        rw [hGcons] at hgr
        by_cases hbb : b = b'
        · subst hbb
          rw [List.find?_cons_of_pos _ (by simp)] at hgr
          have hgr' : gr = (b, tgt, ch) := by
            injection hgr with h
            rw [← h]
          subst hgr'
          have hrestnone : (segGroups rest).find? (fun g => decide (g.1 = b)) =
              Option.none := by
            rw [List.find?_eq_none]
            intro g hg
            simp only [decide_eq_true_eq]
            intro hc
            exact hnd.1 (hc ▸ List.mem_map_of_mem (fun g => g.1) hg)
          rw [hnone2 w b hrestnone, hbins1]
          by_cases hw : w = tgt % P
          · rw [if_pos ⟨hw, rfl⟩, if_pos hw]
          · rw [if_neg (show ¬ (w = tgt % P ∧ b = b) from fun hc => hw hc.1),
              if_neg (show ¬ (w = tgt % P) from hw)]
        · rw [List.find?_cons_of_neg _ (by simpa using hbb)] at hgr
          rw [hfind2 w b' gr hgr, hbins1,
            if_neg (show ¬ (w = tgt % P ∧ b' = b) from fun hc => hbb hc.2.symm)]
      · intro w b' hb'
        rw [hGcons] at hb'
        by_cases hbb : b = b'
        · subst hbb
          rw [List.find?_cons_of_pos _ (by simp)] at hb'
          cases hb'
        · rw [List.find?_cons_of_neg _ (by simpa using hbb)] at hb'
          rw [hnone2 w b' hb', hbins1,
            if_neg (show ¬ (w = tgt % P ∧ b' = b) from fun hc => hbb hc.2.symm)]

/-- Flattening a `filterMap`: dropped elements contribute nothing. -/
theorem flatMap_filterMap {α β γ : Type} (l : List α) (f : α → Option β) (h : β → List γ) :
    (l.filterMap f).flatMap h = l.flatMap (fun a =>
      match f a with
      | some b => h b
      | Option.none => []) := by
  induction l with
  | nil => rfl
  | cons a rest ih =>
    cases hf : f a with
    | none => simp [List.filterMap_cons, List.flatMap_cons, hf, ih]
    | some b => simp [List.filterMap_cons, List.flatMap_cons, hf, ih]

/-- Flattening singleton `pend` segments recovers the message list. -/
theorem flatMap_pend_singletons (l : List (Nat × SP)) :
    (l.map Seg.pend).flatMap Seg.ems = l := by
  induction l with
  | nil => rfl
  | cons e rest ih => simp [Seg.ems, ih]

/-- Every message produced by the pending-notification walk is a
`Pending`. -/
theorem migrateRetain_pendings (oldMap newMap : List Nat) (t : Nat) :
    ∀ (ds : List (Nat × Nat)), ∀ e ∈ (migrateRetain oldMap newMap t ds).2,
      ∃ t' d, e.2 = SP.Pending t' d := by
  intro ds
  induction ds with
  | nil => intro e he; simp [migrateRetain] at he
  | cons km rest ih =>
    intro e he
    obtain ⟨k, m⟩ := km
    by_cases hc : oldMap.getD (key_to_bin k) 0 ≠ newMap.getD (key_to_bin k) 0
    · rw [show migrateRetain oldMap newMap t ((k, m) :: rest) =
        ((migrateRetain oldMap newMap t rest).1,
          (newMap.getD (key_to_bin k) 0, SP.Pending t (k, m)) ::
            (migrateRetain oldMap newMap t rest).2) from by
          simp only [migrateRetain, if_pos hc]] at he
      rcases List.mem_cons.mp he with h | h
      · exact ⟨t, (k, m), by rw [h]⟩
      · exact ih e h
    · rw [show migrateRetain oldMap newMap t ((k, m) :: rest) =
        ((k, m) :: (migrateRetain oldMap newMap t rest).1,
          (migrateRetain oldMap newMap t rest).2) from by
          simp only [migrateRetain, if_neg hc]] at he
      exact ih e he

/-- Every message emitted by the notificator walk at installation is a
`Pending`. -/
theorem notifMigrate_pendings (oldMap newMap : List Nat) :
    ∀ (l : List (Nat × List (Nat × Nat))), ∀ e ∈ (notifMigrate oldMap newMap l).2,
      ∃ t d, e.2 = SP.Pending t d := by
  intro l
  induction l with
  | nil => intro e he; simp [notifMigrate] at he
  | cons p rest ih =>
    intro e he
    obtain ⟨t, data⟩ := p
    simp only [notifMigrate] at he
    rcases List.mem_append.mp he with h | h
    · exact migrateRetain_pendings oldMap newMap t data e h
    · exact ih e h

/-- The delivery segments of one worker's installation pass: the
`Prepare`/`State` group of each bin it migrates, in bin order, followed by
its `Pending` messages. -/
def workerSegs (w P : Nat) (oldMap newMap : List Nat) (stw : StateL) : List Seg :=
  ((List.range oldMap.length).filterMap (fun b =>
    if oldMap.getD b 0 % P = w ∧ oldMap.getD b 0 ≠ newMap.getD b 0 then
      some (Seg.group b (newMap.getD b 0) ((stw.bins.getD b Option.none).getD []))
    else Option.none)) ++
  (notifMigrate oldMap newMap stw.notifPending).2.map Seg.pend

/-- A successful `workerEmit`, described through its delivery segments and
the pointwise take effect on the worker's bins. -/
theorem workerEmit_full (w P : Nat) (oldMap newMap : List Nat) (stw : StateL) (n : Nat)
    (hol : oldMap.length = n) (hnl : newMap.length = n) (hbl : stw.bins.length = n)
    (hsome : ∀ b, b < n →
      (oldMap.getD b 0 % P = w ∧ oldMap.getD b 0 ≠ newMap.getD b 0) →
      (stw.bins.getD b Option.none).isSome) :
    ∃ bins', workerEmit w P oldMap newMap stw =
        some (StateL.mk bins' (notifMigrate oldMap newMap stw.notifPending).1,
          (workerSegs w P oldMap newMap stw).flatMap Seg.ems) ∧
      bins'.length = n ∧
      (∀ b, b < n → bins'.getD b Option.none =
        if oldMap.getD b 0 % P = w ∧ oldMap.getD b 0 ≠ newMap.getD b 0 then Option.none
        else stw.bins.getD b Option.none) := by
  have hplen : (oldMap.zip newMap).length = n := by
    rw [List.length_zip, hol, hnl, Nat.min_self]
  obtain ⟨bins', ems, hml, hblen', hbin, _, hems⟩ :=
    migrateLoop_spec w P (oldMap.zip newMap) 0 stw.bins
      (by rw [hplen, hbl])
      (by
        intro i hi hm
        rw [hplen] at hi
        rw [zip_getD _ _ i (by omega) (by omega)] at hm
        exact hsome i hi hm)
  have hemsEq : ems = ((List.range oldMap.length).filterMap (fun b =>
      if oldMap.getD b 0 % P = w ∧ oldMap.getD b 0 ≠ newMap.getD b 0 then
        some (Seg.group b (newMap.getD b 0) ((stw.bins.getD b Option.none).getD []))
      else Option.none)).flatMap Seg.ems := by
    rw [flatMap_filterMap, hems, hplen, hol]
    apply List.flatMap_congr
    intro i hi
    have hi' : i < n := List.mem_range.mp hi
    rw [zip_getD _ _ i (by omega) (by omega)]
    by_cases hc : oldMap.getD i 0 % P = w ∧ oldMap.getD i 0 ≠ newMap.getD i 0
    · rw [if_pos hc, if_pos hc]
      rw [Nat.zero_add]
      rfl
    · rw [if_neg hc, if_neg hc]
  refine ⟨bins', ?_, by rw [hblen', hbl], ?_⟩
  · unfold workerEmit
    rw [hml]
    unfold workerSegs
    rw [List.flatMap_append, flatMap_pend_singletons, ← hemsEq]
  · intro b hb
    have := hbin b (by rw [hplen]; exact hb)
    rw [zip_getD _ _ b (by omega) (by omega)] at this
    rw [this]

/-- The group segments of one worker's segment list are its migrating-bin
triples. -/
theorem segGroups_workerSegs (w P : Nat) (oldMap newMap : List Nat) (stw : StateL) :
    segGroups (workerSegs w P oldMap newMap stw) =
      (List.range oldMap.length).filterMap (fun b =>
        if oldMap.getD b 0 % P = w ∧ oldMap.getD b 0 ≠ newMap.getD b 0 then
          some (b, newMap.getD b 0, ((stw.bins.getD b Option.none).getD []))
        else Option.none) := by
  unfold workerSegs segGroups
  rw [List.filterMap_append, List.filterMap_map, List.filterMap_filterMap]
  rw [show (List.filterMap ((fun s =>
      match s with
      | Seg.group b tgt chunks => some (b, tgt, chunks)
      | Seg.pend _ => Option.none) ∘ Seg.pend)
      (notifMigrate oldMap newMap stw.notifPending).2) = [] from by simp [Function.comp]]
  rw [List.append_nil]
  apply List.filterMap_congr
  intro b _
  by_cases hc : oldMap.getD b 0 % P = w ∧ oldMap.getD b 0 ≠ newMap.getD b 0
  · rw [if_pos hc, if_pos hc]
    rfl
  · rw [if_neg hc, if_neg hc]
    rfl

/-- Every segment of one worker's segment list is well-formed. -/
theorem workerSegs_ok (w P : Nat) (oldMap newMap : List Nat) (stw : StateL) :
    ∀ s ∈ workerSegs w P oldMap newMap stw, SegOK s := by
  intro s hs
  unfold workerSegs at hs
  rcases List.mem_append.mp hs with h | h
  · obtain ⟨b, _, hb2⟩ := List.mem_filterMap.mp h
    by_cases hc : oldMap.getD b 0 % P = w ∧ oldMap.getD b 0 ≠ newMap.getD b 0
    · rw [if_pos hc] at hb2
      injection hb2 with hb3
      rw [← hb3]
      trivial
    · rw [if_neg hc] at hb2
      cases hb2
  · obtain ⟨em, hem1, hem2⟩ := List.mem_map.mp h
    obtain ⟨t, d, ht⟩ := notifMigrate_pendings oldMap newMap stw.notifPending em hem1
    rw [← hem2]
    exact ⟨t, d, ht⟩

/-- The whole take/emit phase over all workers: every worker's bins lose
exactly the bins that migrate away from it, and the emitted messages are
the concatenation, worker by worker, of the per-worker segments. -/
theorem workersEmit_full (P : Nat) (oldMap newMap : List Nat) (n : Nat)
    (hol : oldMap.length = n) (hnl : newMap.length = n) :
    ∀ (states : List StateL) (w0 : Nat),
    (∀ i, i < states.length → (states.getD i dfltState).bins.length = n) →
    (∀ i, i < states.length → ∀ b, b < n →
      (oldMap.getD b 0 % P = w0 + i ∧ oldMap.getD b 0 ≠ newMap.getD b 0) →
      ((states.getD i dfltState).bins.getD b Option.none).isSome) →
    ∃ states1 segs,
      workersEmit P oldMap newMap w0 states = some (states1, segs.flatMap Seg.ems) ∧
      states1.length = states.length ∧
      (∀ i, i < states.length → (states1.getD i dfltState).bins.length = n) ∧
      (∀ i, i < states.length → ∀ b, b < n →
        (states1.getD i dfltState).bins.getD b Option.none =
          if oldMap.getD b 0 % P = w0 + i ∧ oldMap.getD b 0 ≠ newMap.getD b 0
          then Option.none
          else (states.getD i dfltState).bins.getD b Option.none) ∧
      (∀ s ∈ segs, SegOK s) ∧
      segGroups segs = (List.range states.length).flatMap (fun i =>
        (List.range n).filterMap (fun b =>
          if oldMap.getD b 0 % P = w0 + i ∧ oldMap.getD b 0 ≠ newMap.getD b 0 then
            some (b, newMap.getD b 0,
              ((states.getD i dfltState).bins.getD b Option.none).getD [])
          else Option.none)) := by
  intro states
  induction states with
  | nil =>
    intro w0 _ _
    refine ⟨[], [], rfl, rfl, ?_, ?_, ?_, ?_⟩
    · intro i hi; exact absurd hi (by simp)
    · intro i hi; exact absurd hi (by simp)
    · intro s hs; exact absurd hs (List.not_mem_nil s)
    · simp [segGroups]
  | cons stw rest ih =>
    intro w0 hblen hsome
    obtain ⟨bins', hwe, hblen', hbin'⟩ :=
      workerEmit_full w0 P oldMap newMap stw n hol hnl
        (by simpa using hblen 0 (by simp))
        (by
          intro b hb hc
          have := hsome 0 (by simp) b hb (by simpa using hc)
          simpa using this)
    obtain ⟨rest1, segsRest, hwrest, hlenr, hblenr, hbinr, hokr, hgroupsr⟩ :=
      ih (w0 + 1)
        (by
          intro i hi
          have := hblen (i + 1) (by simpa using Nat.succ_lt_succ hi)
          simpa using this)
        (by
          intro i hi b hb hc
          have := hsome (i + 1) (by simpa using Nat.succ_lt_succ hi) b hb
            (by rw [show w0 + (i + 1) = w0 + 1 + i from by omega]; exact hc)
          simpa using this)
    refine ⟨StateL.mk bins' (notifMigrate oldMap newMap stw.notifPending).1 :: rest1,
      workerSegs w0 P oldMap newMap stw ++ segsRest, ?_, ?_, ?_, ?_, ?_, ?_⟩
    · show workersEmit P oldMap newMap w0 (stw :: rest) = _
      rw [show workersEmit P oldMap newMap w0 (stw :: rest) =
        (match workerEmit w0 P oldMap newMap stw with
          | Option.none => Option.none
          | some (stw', ems) =>
            match workersEmit P oldMap newMap (w0 + 1) rest with
            | Option.none => Option.none
            | some (rest', emsRest) => some (stw' :: rest', ems ++ emsRest))
        from rfl]
      rw [hwe, hwrest, List.flatMap_append]
    · simp [hlenr]
    · intro i hi
      cases i with
      | zero => simpa using hblen'
      | succ j =>
        have hj : j < rest.length := by simpa using hi
        simpa using hblenr j hj
    · intro i hi b hb
      cases i with
      | zero =>
        rw [Nat.add_zero]
        simpa using hbin' b hb
      | succ j =>
        have hj : j < rest.length := by simpa using hi
        have := hbinr j hj b hb
        rw [show w0 + 1 + j = w0 + (j + 1) from by omega] at this
        simpa using this
    · intro s hs
      rcases List.mem_append.mp hs with h | h
      · exact workerSegs_ok w0 P oldMap newMap stw s h
      · exact hokr s h
    · unfold segGroups
      rw [List.filterMap_append]
      show segGroups (workerSegs w0 P oldMap newMap stw) ++ segGroups segsRest = _
      rw [segGroups_workerSegs, hgroupsr]
      rw [show (stw :: rest).length = rest.length + 1 from rfl]
      rw [List.range_succ_eq_map, List.flatMap_cons, List.flatMap_map]
      congr 1
      · rw [hol]
        apply List.filterMap_congr
        intro b _
        rw [Nat.add_zero]
        rfl
      · apply List.flatMap_congr
        intro i _
        show (List.range n).filterMap _ = (List.range n).filterMap _
        apply List.filterMap_congr
        intro b _
        rw [show w0 + 1 + i = w0 + (i + 1) from by omega]
        rfl

/-- The initial global state satisfies the ownership invariant: worker 0
owns every bin, matching the all-zero initial map. -/
theorem GInv_init (P : Nat) (hP : 0 < P) : GInv P (initGlobal P) := by
  refine ⟨by simp [initGlobal], ?_, by simp [initGlobal], ?_, ?_⟩
  · intro v hv
    have : v = 0 := List.eq_of_mem_replicate hv
    rw [this]
    exact hP
  · intro w hw
    show ((((List.range P).map _).getD w dfltState)).bins.length = NBINS
    rw [List.getD_eq_getElem _ _ (by simpa using hw), List.getElem_map]
    simp
  · intro w hw b hb
    have hst : (((List.range P).map (fun w =>
        StateL.mk (List.replicate NBINS (if w = 0 then some [] else Option.none)) [])).getD
        w dfltState) =
        StateL.mk (List.replicate NBINS (if w = 0 then some [] else Option.none)) [] := by
      rw [List.getD_eq_getElem _ _ (by simpa using hw), List.getElem_map, List.getElem_range]
    show ((((List.range P).map (fun w =>
        StateL.mk (List.replicate NBINS (if w = 0 then some [] else Option.none)) [])).getD
        w dfltState).bins.getD b Option.none).isSome = true ↔
      w = (List.replicate NBINS 0).getD b 0
    rw [hst]
    show ((List.replicate NBINS (if w = 0 then some [] else Option.none)).getD
        b Option.none).isSome = true ↔ w = (List.replicate NBINS 0).getD b 0
    rw [List.getD_eq_getElem _ _ (by simpa using hb),
      List.getD_eq_getElem _ _ (by simpa using hb)]
    rw [List.getElem_replicate, List.getElem_replicate]
    by_cases hw0 : w = 0
    · rw [if_pos hw0]
      exact iff_of_true rfl hw0
    · rw [if_neg hw0]
      exact iff_of_false (by simp) hw0

/-- One global installation step preserves the ownership invariant. -/
theorem GInv_step {P : Nat} (hP : 0 < P) {g g' : Global}
    (hinv : GInv P g) (hstep : GStep P g g') : GInv P g' := by
  obtain ⟨m, hml, hmv, hgi⟩ := hstep
  obtain ⟨hmapl, hmapv, hsl, hblen, hown⟩ := hinv
  obtain ⟨states1, segs, hwe, hlen1, hblen1, hbin1, hok1, hgroups1⟩ :=
    workersEmit_full P g.map m NBINS hmapl hml g.states 0
      (fun i hi => hblen i (by rw [← hsl]; exact hi))
      (by
        intro i hi b hb hc
        have hov : g.map.getD b 0 < P := hmapv _ (getD_mem 0 (by rw [hmapl]; exact hb))
        have heq : i = g.map.getD b 0 := by
          have := hc.1
          rw [Nat.mod_eq_of_lt hov] at this
          omega
        exact (hown i (by rw [← hsl]; exact hi) b hb).mpr heq)
  simp only [Nat.zero_add] at hbin1 hgroups1
  have hmem : ∀ gr ∈ segGroups segs, ∃ b, b < NBINS ∧ g.map.getD b 0 ≠ m.getD b 0 ∧
      gr = (b, m.getD b 0,
        ((g.states.getD (g.map.getD b 0) dfltState).bins.getD b Option.none).getD []) := by
    intro gr hgr
    rw [hgroups1] at hgr
    obtain ⟨i, _, hgr2⟩ := List.mem_flatMap.mp hgr
    obtain ⟨b, hb, hbeq⟩ := List.mem_filterMap.mp hgr2
    have hb' : b < NBINS := List.mem_range.mp hb
    by_cases hc : g.map.getD b 0 % P = i ∧ g.map.getD b 0 ≠ m.getD b 0
    · rw [if_pos hc] at hbeq
      have hov : g.map.getD b 0 < P := hmapv _ (getD_mem 0 (by rw [hmapl]; exact hb'))
      have hieq : i = g.map.getD b 0 := by rw [← hc.1, Nat.mod_eq_of_lt hov]
      refine ⟨b, hb', hc.2, ?_⟩
      injection hbeq with h
      rw [← h, hieq]
    · rw [if_neg hc] at hbeq
      cases hbeq
  have hmem2 : ∀ b, b < NBINS → g.map.getD b 0 ≠ m.getD b 0 →
      (b, m.getD b 0,
        ((g.states.getD (g.map.getD b 0) dfltState).bins.getD b Option.none).getD []) ∈
        segGroups segs := by
    intro b hb hne
    rw [hgroups1]
    have hov : g.map.getD b 0 < P := hmapv _ (getD_mem 0 (by rw [hmapl]; exact hb))
    refine List.mem_flatMap.mpr ⟨g.map.getD b 0,
      List.mem_range.mpr (by rw [hsl]; exact hov), ?_⟩
    refine List.mem_filterMap.mpr ⟨b, List.mem_range.mpr hb, ?_⟩
    rw [if_pos ⟨Nat.mod_eq_of_lt hov, hne⟩]
  have hnd : ((segGroups segs).map (fun gr => gr.1)).Nodup := by
    rw [hgroups1, List.map_flatMap]
    refine List.nodup_flatMap.mpr ⟨?_, ?_⟩
    · intro i _
      rw [List.map_filterMap]
      refine List.Nodup.filterMap ?_ (List.nodup_range _)
      intro a a' x hxa hxa'
      have ha : x = a := by
        by_cases hc : g.map.getD a 0 % P = i ∧ g.map.getD a 0 ≠ m.getD a 0
        · rw [if_pos hc] at hxa
          simp at hxa
          omega
        · rw [if_neg hc] at hxa
          simp at hxa
      have ha' : x = a' := by
        by_cases hc : g.map.getD a' 0 % P = i ∧ g.map.getD a' 0 ≠ m.getD a' 0
        · rw [if_pos hc] at hxa'
          simp at hxa'
          omega
        · rw [if_neg hc] at hxa'
          simp at hxa'
      rw [← ha, ← ha']
    · refine (List.pairwise_lt_range _).imp ?_
      intro i j hij x hxi hxj
      simp only [List.map_filterMap] at hxi hxj
      obtain ⟨a, _, hxa⟩ := List.mem_filterMap.mp hxi
      obtain ⟨a', _, hxa'⟩ := List.mem_filterMap.mp hxj
      have hi2 : g.map.getD a 0 % P = i := by
        by_cases hc : g.map.getD a 0 % P = i ∧ g.map.getD a 0 ≠ m.getD a 0
        · exact hc.1
        · rw [if_neg hc] at hxa
          cases hxa
      have hxeqa : x = a := by
        by_cases hc : g.map.getD a 0 % P = i ∧ g.map.getD a 0 ≠ m.getD a 0
        · rw [if_pos hc] at hxa
          simp at hxa
          omega
        · rw [if_neg hc] at hxa
          cases hxa
      have hj2 : g.map.getD a' 0 % P = j := by
        by_cases hc : g.map.getD a' 0 % P = j ∧ g.map.getD a' 0 ≠ m.getD a' 0
        · exact hc.1
        · rw [if_neg hc] at hxa'
          cases hxa'
      have hxeqa' : x = a' := by
        by_cases hc : g.map.getD a' 0 % P = j ∧ g.map.getD a' 0 ≠ m.getD a' 0
        · rw [if_pos hc] at hxa'
          simp at hxa'
          omega
        · rw [if_neg hc] at hxa'
          cases hxa'
      rw [← hxeqa] at hi2
      rw [← hxeqa'] at hj2
      omega
  have hpre : ∀ gr ∈ segGroups segs,
      gr.1 < (states1.getD (gr.2.1 % P) dfltState).bins.length ∧
      binsAt states1 (gr.2.1 % P) gr.1 = Option.none := by
    intro gr hgr
    obtain ⟨b, hb, hne, hgreq⟩ := hmem gr hgr
    subst hgreq
    have hmv' : m.getD b 0 < P := hmv _ (getD_mem 0 (by rw [hml]; exact hb))
    have hmodm : m.getD b 0 % P = m.getD b 0 := Nat.mod_eq_of_lt hmv'
    have hov : g.map.getD b 0 < P := hmapv _ (getD_mem 0 (by rw [hmapl]; exact hb))
    have hmodo : g.map.getD b 0 % P = g.map.getD b 0 := Nat.mod_eq_of_lt hov
    constructor
    · show b < (states1.getD (m.getD b 0 % P) dfltState).bins.length
      rw [hmodm, hblen1 (m.getD b 0) (by rw [hsl]; exact hmv')]
      exact hb
    · show binsAt states1 (m.getD b 0 % P) b = Option.none
      unfold binsAt
      rw [hmodm, hbin1 (m.getD b 0) (by rw [hsl]; exact hmv') b hb]
      by_cases hc : g.map.getD b 0 % P = m.getD b 0 ∧ g.map.getD b 0 ≠ m.getD b 0
      · rw [if_pos hc]
      · rw [if_neg hc]
        have hne2 : m.getD b 0 ≠ g.map.getD b 0 := by
          intro heq
          exact hc ⟨by rw [hmodo, heq], hne⟩
        have := hown (m.getD b 0) hmv' b hb
        unfold binsAt at this
        exact Option.not_isSome_iff_eq_none.mp (fun hs => hne2 (this.mp hs))
  obtain ⟨states2, hdel, hlen2, hblen2, hfind2, hnone2⟩ :=
    segsDeliver P hP segs states1 (by rw [hlen1, hsl]) hok1 hnd hpre
  have hGI : globalInstall P m g = some (Global.mk m states2) := by
    unfold globalInstall
    rw [hwe]
    show (match deliver P (segs.flatMap Seg.ems) states1 with
      | Option.none => Option.none
      | some states2 => some (Global.mk m states2)) = _
    rw [hdel]
  have hg' : g' = Global.mk m states2 := Option.some.inj (hgi.symm.trans hGI)
  rw [hg']
  refine ⟨hml, hmv, hlen2, ?_, ?_⟩
  · intro w hw
    show (states2.getD w dfltState).bins.length = NBINS
    rw [hblen2 w, hblen1 w (by rw [hsl]; exact hw)]
  · intro w hw b hb
    show (binsAt states2 w b).isSome = true ↔ w = m.getD b 0
    have hov : g.map.getD b 0 < P := hmapv _ (getD_mem 0 (by rw [hmapl]; exact hb))
    have hmodo : g.map.getD b 0 % P = g.map.getD b 0 := Nat.mod_eq_of_lt hov
    by_cases hchg : g.map.getD b 0 = m.getD b 0
    · have hfn : (segGroups segs).find? (fun gr => decide (gr.1 = b)) = Option.none := by
        rw [List.find?_eq_none]
        intro gr hgr
        obtain ⟨b', _, hne', hgreq⟩ := hmem gr hgr
        subst hgreq
        simp only [decide_eq_true_eq]
        intro hc
        exact hne' (hc ▸ hchg)
      rw [hnone2 w b hfn]
      unfold binsAt
      rw [hbin1 w (by rw [hsl]; exact hw) b hb]
      rw [if_neg (fun hc => hc.2 hchg)]
      have := hown w hw b hb
      unfold binsAt at this
      rw [this, hchg]
    · have hgrmem := hmem2 b hb hchg
      have hfind := find?_key_of_nodup _ hnd _ hgrmem
      rw [hfind2 w b _ hfind]
      have hmv' : m.getD b 0 < P := hmv _ (getD_mem 0 (by rw [hml]; exact hb))
      have hmodm : m.getD b 0 % P = m.getD b 0 := Nat.mod_eq_of_lt hmv'
      by_cases hw2 : w = m.getD b 0
      · rw [if_pos (by rw [hmodm]; exact hw2)]
        exact iff_of_true rfl hw2
      · rw [if_neg (by rw [hmodm]; exact hw2)]
        unfold binsAt
        rw [hbin1 w (by rw [hsl]; exact hw) b hb]
        by_cases hw3 : w = g.map.getD b 0
        · rw [if_pos ⟨by rw [hmodo, ← hw3], hchg⟩]
          exact iff_of_false (by simp) hw2
        · rw [if_neg (fun hc => hw3 (by rw [← hc.1, hmodo]))]
          have := hown w hw b hb
          unfold binsAt at this
          exact iff_of_false (fun hs => hw3 (this.mp hs)) hw2

/-- Every state reachable by installation steps satisfies the ownership
invariant. -/
theorem GInv_reachable {P : Nat} (hP : 0 < P) {g : Global}
    (h : ReachableG P g) : GInv P g := by
  unfold ReachableG at h
  induction h with
  | refl => exact GInv_init P hP
  | tail _ hstep ih => exact GInv_step hP ih hstep

/-- C1: in every reachable state of the protocol with `P` workers all
consuming the same control stream, each bin index `b` has `bins[b].is_some()`
on exactly one worker, and that worker is the one named by entry `b` of the
active map (initially all bins are `Some` only on worker 0 under the all-zero
initial map; the take at installation on the old owner is matched by the
`Prepare` creating the slot on the new owner — `stateful.rs:191-197, 233-238,
339-351`, `distribution.rs:247-303`). -/
theorem claim_C1 (P : Nat) (hP : 0 < P) (g : Global) (hreach : ReachableG P g) :
    GInv P g ∧ ∀ b, b < NBINS →
      ∃! w, w < P ∧ (binsAt g.states w b).isSome = true := by
  have hinv := GInv_reachable hP hreach
  refine ⟨hinv, ?_⟩
  obtain ⟨hmapl, hmapv, _, _, hown⟩ := hinv
  intro b hb
  have howner : g.map.getD b 0 < P := hmapv _ (getD_mem 0 (by rw [hmapl]; exact hb))
  refine ⟨g.map.getD b 0, ⟨howner, (hown _ howner b hb).mpr rfl⟩, ?_⟩
  intro w hw
  exact (hown w hw.1 b hb).mp hw.2

/-- Witness for C1: the invariant and unique-ownership property hold in the
(trivially reachable) initial state with two workers. -/
theorem claim_C1_witness :
    0 < 2 ∧ ReachableG 2 (initGlobal 2) ∧
      (GInv 2 (initGlobal 2) ∧ ∀ b, b < NBINS →
        ∃! w, w < 2 ∧ (binsAt (initGlobal 2).states w b).isSome = true) :=
  ⟨by decide, Relation.ReflTransGen.refl,
    claim_C1 2 (by decide) (initGlobal 2) Relation.ReflTransGen.refl⟩

end Megaphone
